import Mathlib

/-!
Verification of the dependency-driven state propagation engine of the
`substance` repository, a shallow embedding of:

  * `src/util/DependencyGraph.js` (ranks, cycle detection),
  * `src/ui/StateEngine.js` (slots, reducer entries, scheduling, triggering),
  * `src/ui/State.js` (resource store, dirty flags, propagation driver).

JavaScript objects used as string-keyed maps are modelled as
insertion-ordered association lists (JS objects preserve insertion order for
non-integer string keys, and all keys used here are non-integer strings).
JavaScript exceptions are modelled with `Except`: an error propagates to the
top of the call under scrutiny, which is all the claims observe.  Unbounded
recursion (rank computation, re-entrant propagation) is modelled with a fuel
parameter; a separate lemma shows the fuel bound used by the embedding can
never be exhausted, so fuel is purely a termination instrument.
-/

/-- Errors a JavaScript run can surface: the cyclic-dependency `Error` thrown
by `DependencyGraph._computeRank`, a `TypeError` from dereferencing
`undefined`, and the artificial out-of-fuel marker of the embedding. -/
inductive JsErr where
  | cyclic
  | typeError
  | fuelOut
deriving DecidableEq, Repr

/-- Association-list lookup: the value stored under the first binding of the
key, i.e. JavaScript property read (`undefined` when absent is rendered by
the caller via `Option`). -/
def alookup {κ α : Type} [DecidableEq κ] : List (κ × α) → κ → Option α
  | [], _ => none
  | (k1, v1) :: rest, k => if k1 = k then some v1 else alookup rest k

/-- Association-list write, JavaScript `obj[k] = v`: overwrite the binding in
place if the key is present (keeping its position), append otherwise. -/
def aset {κ α : Type} [DecidableEq κ] : List (κ × α) → κ → α → List (κ × α)
  | [], k, v => [(k, v)]
  | (k1, v1) :: rest, k, v =>
    if k1 = k then (k1, v) :: rest else (k1, v1) :: aset rest k v

theorem alookup_aset {κ α : Type} [DecidableEq κ]
    (l : List (κ × α)) (k m : κ) (v : α) :
    alookup (aset l k v) m = if k = m then some v else alookup l m := by
  induction l with
  | nil =>
    by_cases h : k = m <;> simp [aset, alookup, h]
  | cons p rest ih =>
    obtain ⟨k1, v1⟩ := p
    by_cases h1 : k1 = k
    · subst h1
      by_cases h2 : k1 = m <;> simp [aset, alookup, h2]
    · by_cases h2 : k1 = m
      · subst h2
        have hkm : ¬ k = k1 := fun h => h1 h.symm
        simp [aset, alookup, h1, hkm]
      · simp [aset, alookup, h1, h2, ih]

theorem alookup_append_left {κ α : Type} [DecidableEq κ]
    {l : List (κ × α)} (l' : List (κ × α)) {k : κ} {v : α}
    (h : alookup l k = some v) : alookup (l ++ l') k = some v := by
  induction l with
  | nil => simp [alookup] at h
  | cons p rest ih =>
    obtain ⟨k1, v1⟩ := p
    by_cases h1 : k1 = k
    · simp [alookup, h1] at h ⊢; exact h
    · simp [alookup, h1] at h ⊢; exact ih h

theorem alookup_isSome_append {κ α : Type} [DecidableEq κ]
    {l : List (κ × α)} (l' : List (κ × α)) {k : κ}
    (h : (alookup l k).isSome) : (alookup (l ++ l') k).isSome := by
  obtain ⟨v, hv⟩ := Option.isSome_iff_exists.1 h
  exact Option.isSome_iff_exists.2 ⟨v, alookup_append_left l' hv⟩

/-- Membership of a binding whose key is first-found gives lookup. -/
theorem alookup_of_mem_nodup {κ α : Type} [DecidableEq κ]
    {l : List (κ × α)} {k : κ} {v : α}
    (hnd : (l.map Prod.fst).Nodup) (hmem : (k, v) ∈ l) :
    alookup l k = some v := by
  induction l with
  | nil => cases hmem
  | cons p rest ih =>
    obtain ⟨k1, v1⟩ := p
    simp only [List.map_cons, List.nodup_cons] at hnd
    rcases List.mem_cons.1 hmem with h | h
    · cases h; simp [alookup]
    · have hk1 : k1 ≠ k := by
        intro he
        apply hnd.1
        rw [he]
        exact List.mem_map.2 ⟨(k, v), h, rfl⟩
      simp [alookup, hk1]
      exact ih hnd.2 h

theorem mem_of_alookup {κ α : Type} [DecidableEq κ]
    {l : List (κ × α)} {k : κ} {v : α}
    (h : alookup l k = some v) : (k, v) ∈ l := by
  induction l with
  | nil => simp [alookup] at h
  | cons p rest ih =>
    obtain ⟨k1, v1⟩ := p
    by_cases h1 : k1 = k
    · subst h1; simp [alookup] at h; simp [h]
    · simp [alookup, h1] at h
      exact List.mem_cons_of_mem _ (ih h)

/-! ### `src/util/DependencyGraph.js`

`this._deps` is an object mapping a name to a `Set` of its dependencies;
both the object and each `Set` preserve insertion order, so we model the
table as an association list of dependency lists without duplicates. -/

/-- The `name -> inputs` table `this._deps`. -/
abbrev DepsTable := List (String × List String)

/-- The `name -> rank` table built by `_update` / `_computeRank`.  Ranks are
integers; the sentinel `-1` marks a name whose rank computation is still in
progress (used for cycle detection). -/
abbrev RanksTable := List (String × Int)

/-- `this._deps[name] || []` (rank computation looks dependencies up with a
fallback to an empty collection). -/
def lookupDeps (g : DepsTable) (n : String) : List String :=
  (alookup g n).getD []

/-- `ranks[name] = r` (JavaScript property write). -/
def setRank (rs : RanksTable) (n : String) (r : Int) : RanksTable :=
  aset rs n r

mutual

/-- `DependencyGraph._computeRank(name, deps, ranks)`:
memoized depth-first rank computation with the `-1` in-progress sentinel.
`fuel` only bounds the recursion depth of the embedding; `rankFuel` below is
shown (`computeRank_no_fuelOut`) to be always sufficient. -/
def computeRank (g : DepsTable) :
    Nat → String → List String → RanksTable → Except JsErr (Int × RanksTable)
  | 0, _, _, _ => .error .fuelOut
  | fuel + 1, name, deps, ranks =>
    match alookup ranks name with
    | some r =>
      -- the entry was computed already, or is in progress (`-1`): cycle
      if r = -1 then .error .cyclic else .ok (r, ranks)
    | none =>
      -- mark in-progress with the `-1` guard
      let ranks1 := ranks ++ [(name, -1)]
      match deps with
      | [] => .ok (0, setRank ranks1 name 0)
      | d :: ds =>
        -- `rank = Math.max(...depRanks) + 1` over the non-empty `deps`
        match computeRank g fuel d (lookupDeps g d) ranks1 with
        | .error e => .error e
        | .ok (r1, ranks2) =>
          match computeRankFold g fuel ds ranks2 r1 with
          | .error e => .error e
          | .ok (mx, ranks3) => .ok (mx + 1, setRank ranks3 name (mx + 1))

/-- The `deps.forEach` loop inside `_computeRank`, accumulating the maximum
of the recursively computed dependency ranks. -/
def computeRankFold (g : DepsTable) :
    Nat → List String → RanksTable → Int → Except JsErr (Int × RanksTable)
  | 0, _, _, _ => .error .fuelOut
  | _ + 1, [], ranks, acc => .ok (acc, ranks)
  | fuel + 1, d :: ds, ranks, acc =>
    match computeRank g fuel d (lookupDeps g d) ranks with
    | .error e => .error e
    | .ok (r, ranks') => computeRankFold g fuel ds ranks' (max acc r)

end

/-- Fuel that always suffices for `computeRank` (see `computeRank_no_fuelOut`):
a unit for every table entry plus its dependency list, plus slack. -/
def rankFuel (g : DepsTable) : Nat :=
  (g.map (fun p => p.2.length + 2)).sum + 2

/-- `DependencyGraph._update()`: recompute the whole rank table by walking
every entry of `this._deps` in insertion order. -/
def updateRanks (g : DepsTable) : Except JsErr RanksTable :=
  go g []
where
  go : DepsTable → RanksTable → Except JsErr RanksTable
  | [], ranks => .ok ranks
  | (name, deps) :: rest, ranks =>
    match computeRank g (rankFuel g) name deps ranks with
    | .error e => .error e
    | .ok (_, ranks') => go rest ranks'

/-- The `DependencyGraph` object: the dependency table and the lazily cached
rank table (`null` when invalidated). -/
structure DependencyGraph where
  deps : DepsTable
  ranks : Option RanksTable
deriving Repr

def DependencyGraph.empty : DependencyGraph := { deps := [], ranks := none }

/-- Insert `n` as a key with an empty dependency set when missing
(`if (!this._deps[n]) this._deps[n] = new Set()`). -/
def ensureKey (g : DepsTable) (n : String) : DepsTable :=
  if (alookup g n).isSome then g else g ++ [(n, [])]

/-- `this._deps[name].add(dep)`: sets are deduplicating and keep insertion
order. -/
def addToSet (g : DepsTable) (n d : String) : DepsTable :=
  match alookup g n with
  | none => g
  | some ds => aset g n (if d ∈ ds then ds else ds ++ [d])

/-- `DependencyGraph._addDependency(name, deps)` (the `_invalidate` it
performs is reflected by the caller dropping the cached ranks). -/
def addDependencyTable (g : DepsTable) (name : String) (deps : List String) :
    DepsTable :=
  deps.foldl (fun acc d => addToSet (ensureKey acc d) name d) (ensureKey g name)

/-- `DependencyGraph.addDependency(name, deps)`: mutate the table, then
eagerly `_update()`; a cycle error aborts registration. -/
def DependencyGraph.addDependency (dg : DependencyGraph) (name : String)
    (deps : List String) : Except JsErr DependencyGraph :=
  let g' := addDependencyTable dg.deps name deps
  match updateRanks g' with
  | .error e => .error e
  | .ok rs => .ok { deps := g', ranks := some rs }

/-- `DependencyGraph._getRanks()`: recompute lazily when invalidated. -/
def DependencyGraph.getRanks (dg : DependencyGraph) :
    Except JsErr (RanksTable × DependencyGraph) :=
  match dg.ranks with
  | some rs => .ok (rs, dg)
  | none =>
    match updateRanks dg.deps with
    | .error e => .error e
    | .ok rs => .ok (rs, { dg with ranks := some rs })

/-! ### Invariants of the rank computation -/

theorem alookup_append {κ α : Type} [DecidableEq κ]
    (l l' : List (κ × α)) (k : κ) :
    alookup (l ++ l') k = (alookup l k).or (alookup l' k) := by
  induction l with
  | nil => simp [alookup]
  | cons p rest ih =>
    obtain ⟨k1, v1⟩ := p
    by_cases h : k1 = k <;> simp [alookup, h, ih]

/-- The value of a name in a rank table, with the JavaScript `undefined`
read rendered as the `-1` the engine substitutes for unknown names. -/
def rankVal (rs : RanksTable) (n : String) : Int :=
  (alookup rs n).getD (-1)

/-- `Math.max` over the (current) ranks of a dependency list; on a non-empty
list the `-1` seed is inert because every stored rank is at least `-1`. -/
def maxDepRank (rs : RanksTable) (ds : List String) : Int :=
  (ds.map (rankVal rs)).foldl max (-1)

theorem maxDepRank_congr {rs rs' : RanksTable} {ds : List String}
    (h : ∀ d ∈ ds, rankVal rs' d = rankVal rs d) :
    maxDepRank rs' ds = maxDepRank rs ds := by
  unfold maxDepRank
  rw [List.map_congr_left h]

theorem rankVal_of_alookup {rs : RanksTable} {n : String} {v : Int}
    (h : alookup rs n = some v) : rankVal rs n = v := by
  simp [rankVal, h]

/-- Soundness invariant of the memoized DFS: every finished entry (value
`≠ -1`) already satisfies the rank recurrence over the current table, and
all of its dependencies are finished as well. -/
def GoodRanks (g : DepsTable) (rs : RanksTable) : Prop :=
  ∀ n v, alookup rs n = some v →
    v = -1 ∨
      (0 ≤ v ∧
        (∀ d ∈ lookupDeps g n,
          ∃ rd, alookup rs d = some rd ∧ 0 ≤ rd ∧ rd < v) ∧
        v = (if lookupDeps g n = [] then 0 else maxDepRank rs (lookupDeps g n) + 1))

theorem goodRanks_nil (g : DepsTable) : GoodRanks g [] := by
  intro n v h
  simp [alookup] at h

/-- A name whose marker is still `-1` cannot occur among the dependencies of
any finished entry. -/
theorem goodRanks_not_dep {g : DepsTable} {rs : RanksTable} {name : String}
    (hg : GoodRanks g rs) (hm : alookup rs name = some (-1))
    {n : String} {v : Int} (hn : alookup rs n = some v) (hv : 0 ≤ v) :
    name ∉ lookupDeps g n := by
  intro hdep
  rcases hg n v hn with h | ⟨_, hdeps, _⟩
  · omega
  · obtain ⟨rd, hrd, hrd0, _⟩ := hdeps name hdep
    rw [hm] at hrd
    cases hrd
    omega

/-- Inserting the `-1` in-progress marker for a fresh name preserves the
invariant; note `rankVal` is unchanged everywhere (an absent name already
read as `-1`). -/
theorem rankVal_append_marker (rs : RanksTable) (name : String) (n : String) :
    rankVal (rs ++ [(name, -1)]) n = rankVal rs n := by
  unfold rankVal
  rw [alookup_append]
  cases h : alookup rs n with
  | some v => simp
  | none =>
    by_cases hn : name = n <;> simp [alookup, hn]

theorem goodRanks_append_marker {g : DepsTable} {rs : RanksTable}
    {name : String} (hg : GoodRanks g rs) (_habs : alookup rs name = none) :
    GoodRanks g (rs ++ [(name, -1)]) := by
  intro n v hn
  rw [alookup_append] at hn
  cases h : alookup rs n with
  | some w =>
    rw [h] at hn
    simp at hn
    subst hn
    rcases hg n w h with h1 | ⟨h1, h2, h3⟩
    · exact Or.inl h1
    · refine Or.inr ⟨h1, ?_, ?_⟩
      · intro d hd
        obtain ⟨rd, hrd, hrd0, hrdlt⟩ := h2 d hd
        exact ⟨rd, alookup_append_left _ hrd, hrd0, hrdlt⟩
      · rw [maxDepRank_congr (fun d _ => rankVal_append_marker rs name d)]
        exact h3
  | none =>
    rw [h] at hn
    simp at hn
    by_cases hm : name = n
    · subst hm
      simp [alookup] at hn
      exact Or.inl hn.symm
    · simp [alookup, hm] at hn

/-- Bindings survive a rank-computation step (the walk only ever writes the
name it inserted itself, which was absent from the incoming table). -/
def RankPersist (rs rs' : RanksTable) : Prop :=
  ∀ n v, alookup rs n = some v → alookup rs' n = some v

theorem alookup_marker_self {rs : RanksTable} {name : String} {v : Int}
    (h : alookup rs name = none) : alookup (rs ++ [(name, v)]) name = some v := by
  rw [alookup_append, h]
  simp [alookup]

theorem alookup_setRank (rs : RanksTable) (n m : String) (r : Int) :
    alookup (setRank rs n r) m = if n = m then some r else alookup rs m :=
  alookup_aset rs n m r

/-- Joint soundness of the memoized DFS and its inner fold: on success the
table only grows, the returned rank is the stored, non-negative rank of the
requested name, and every finished entry satisfies the rank recurrence. -/
theorem computeRank_sound (g : DepsTable) : ∀ fuel : Nat,
    (∀ name deps ranks r ranks',
      deps = lookupDeps g name →
      GoodRanks g ranks →
      computeRank g fuel name deps ranks = .ok (r, ranks') →
      RankPersist ranks ranks' ∧ 0 ≤ r ∧ alookup ranks' name = some r ∧
        GoodRanks g ranks') ∧
    (∀ ds ranks acc mx ranks',
      GoodRanks g ranks →
      computeRankFold g fuel ds ranks acc = .ok (mx, ranks') →
      RankPersist ranks ranks' ∧ acc ≤ mx ∧ GoodRanks g ranks' ∧
        (∀ d ∈ ds, ∃ rd, alookup ranks' d = some rd ∧ 0 ≤ rd ∧ rd ≤ mx) ∧
        mx = ds.foldl (fun a d => max a (rankVal ranks' d)) acc) := by
  intro fuel
  induction fuel with
  | zero =>
    constructor
    · intro name deps ranks r ranks' _ _ hok
      simp [computeRank] at hok
    · intro ds ranks acc mx ranks' _ hok
      simp [computeRankFold] at hok
  | succ fuel ih =>
    obtain ⟨ih1, ih2⟩ := ih
    constructor
    · intro name deps ranks r ranks' hdeps hgood hok
      cases hmemo : alookup ranks name with
      | some r0 =>
        simp only [computeRank, hmemo] at hok
        by_cases h0 : r0 = -1
        · simp [h0] at hok
        · simp [h0] at hok
          obtain ⟨hr, hrk⟩ := hok
          rcases hgood name r0 hmemo with h | ⟨h1, _, _⟩
          · exact absurd h h0
          · subst hr
            subst hrk
            exact ⟨fun n v hv => hv, h1, hmemo, hgood⟩
      | none =>
        simp only [computeRank, hmemo] at hok
        have hmark : alookup (ranks ++ [(name, -1)]) name = some (-1) :=
          alookup_marker_self hmemo
        have hgood1 : GoodRanks g (ranks ++ [(name, -1)]) :=
          goodRanks_append_marker hgood hmemo
        cases deps with
        | nil =>
          simp at hok
          obtain ⟨hr, hrk⟩ := hok
          subst hr; subst hrk
          have hper : RankPersist ranks (setRank (ranks ++ [(name, -1)]) name 0) := by
            intro n v hv
            rw [alookup_setRank]
            have hne : name ≠ n := by
              intro he; rw [he] at hmemo; rw [hmemo] at hv; cases hv
            rw [if_neg hne]
            exact alookup_append_left _ hv
          have hself : alookup (setRank (ranks ++ [(name, -1)]) name 0) name = some 0 := by
            rw [alookup_setRank, if_pos rfl]
          refine ⟨hper, le_refl 0, hself, ?_⟩
          -- the finished table: `name` now satisfies the recurrence with no deps
          intro n v hv
          rw [alookup_setRank] at hv
          by_cases hn : name = n
          · subst hn
            simp at hv
            subst hv
            refine Or.inr ⟨le_refl 0, ?_, ?_⟩
            · intro d hd
              rw [← hdeps] at hd
              cases hd
            · rw [← hdeps]
              simp
          · rw [if_neg hn] at hv
            rcases hgood1 n v hv with h | ⟨h1, h2, h3⟩
            · exact Or.inl h
            · refine Or.inr ⟨h1, ?_, ?_⟩
              · intro d hd
                obtain ⟨rd, hrd, hrd0, hrdlt⟩ := h2 d hd
                have hdne : name ≠ d := by
                  intro he; rw [← he] at hrd
                  rw [hmark] at hrd
                  cases hrd
                  omega
                exact ⟨rd, by rw [alookup_setRank, if_neg hdne]; exact hrd, hrd0, hrdlt⟩
              · have hcongr : ∀ d ∈ lookupDeps g n,
                    rankVal (setRank (ranks ++ [(name, -1)]) name 0) d
                      = rankVal (ranks ++ [(name, -1)]) d := by
                  intro d hd
                  obtain ⟨rd, hrd, hrd0, _⟩ := h2 d hd
                  have hdne : name ≠ d := by
                    intro he; rw [← he] at hrd
                    rw [hmark] at hrd
                    cases hrd
                    omega
                  unfold rankVal
                  rw [alookup_setRank, if_neg hdne]
                rw [maxDepRank_congr hcongr]
                exact h3
        | cons d ds =>
          cases hre1 : computeRank g fuel d (lookupDeps g d) (ranks ++ [(name, -1)]) with
          | error e => simp [hre1] at hok
          | ok pr1 =>
            obtain ⟨r1, ranks2⟩ := pr1
            cases hre2 : computeRankFold g fuel ds ranks2 r1 with
            | error e => simp [hre1, hre2] at hok
            | ok pr2 =>
              obtain ⟨mx, ranks3⟩ := pr2
              simp [hre1, hre2] at hok
              obtain ⟨hr, hrk⟩ := hok
              subst hr; subst hrk
              obtain ⟨hper1, hr1pos, hbind1, hgood2⟩ :=
                ih1 d (lookupDeps g d) (ranks ++ [(name, -1)]) r1 ranks2 rfl hgood1 hre1
              obtain ⟨hper2, haccle, hgood3, hbnds, hexact⟩ :=
                ih2 ds ranks2 r1 mx ranks3 hgood2 hre2
              have hmark3 : alookup ranks3 name = some (-1) :=
                hper2 _ _ (hper1 _ _ hmark)
              have hbind13 : alookup ranks3 d = some r1 := hper2 _ _ hbind1
              have hdne : name ≠ d := by
                intro he; rw [he] at hmark3
                rw [hmark3] at hbind13
                cases hbind13
                omega
              have hdsne : ∀ d' ∈ ds, name ≠ d' := by
                intro d' hd' he
                obtain ⟨rd, hrd, hrd0, _⟩ := hbnds d' hd'
                rw [← he] at hrd
                rw [hmark3] at hrd
                cases hrd
                omega
              have hdepne : ∀ d' ∈ (d :: ds), name ≠ d' := by
                intro d' hd'
                rcases List.mem_cons.1 hd' with h | h
                · rw [h]; exact hdne
                · exact hdsne d' h
              have hmx0 : 0 ≤ mx := le_trans hr1pos haccle
              have hper : RankPersist ranks (setRank ranks3 name (mx + 1)) := by
                intro n v hv
                rw [alookup_setRank]
                have hne : name ≠ n := by
                  intro he; rw [he] at hmemo; rw [hmemo] at hv; cases hv
                rw [if_neg hne]
                exact hper2 _ _ (hper1 _ _ (alookup_append_left _ hv))
              have hself : alookup (setRank ranks3 name (mx + 1)) name = some (mx + 1) := by
                rw [alookup_setRank, if_pos rfl]
              -- the maximum accumulated by the fold is exactly `maxDepRank`
              have hmaxeq : maxDepRank ranks3 (d :: ds) = mx := by
                unfold maxDepRank
                rw [List.foldl_map]
                have hval : rankVal ranks3 d = r1 := rankVal_of_alookup hbind13
                simp only [List.foldl_cons]
                rw [hval, max_eq_right (by omega : (-1 : Int) ≤ r1)]
                exact hexact.symm
              refine ⟨hper, by omega, hself, ?_⟩
              intro n v hv
              rw [alookup_setRank] at hv
              by_cases hn : name = n
              · subst hn
                simp at hv
                subst hv
                refine Or.inr ⟨by omega, ?_, ?_⟩
                · intro d' hd'
                  rw [← hdeps] at hd'
                  rcases List.mem_cons.1 hd' with h | h
                  · subst h
                    refine ⟨r1, ?_, hr1pos, by omega⟩
                    rw [alookup_setRank, if_neg hdne]
                    exact hbind13
                  · obtain ⟨rd, hrd, hrd0, hrdle⟩ := hbnds d' h
                    refine ⟨rd, ?_, hrd0, by omega⟩
                    rw [alookup_setRank, if_neg (hdsne d' h)]
                    exact hrd
                · have hne : lookupDeps g name ≠ [] := by
                    rw [← hdeps]; simp
                  rw [if_neg hne]
                  have hcongr : ∀ d' ∈ lookupDeps g name,
                      rankVal (setRank ranks3 name (mx + 1)) d' = rankVal ranks3 d' := by
                    intro d' hd'
                    unfold rankVal
                    rw [alookup_setRank, if_neg (hdepne d' (hdeps ▸ hd'))]
                  rw [maxDepRank_congr hcongr, ← hdeps, hmaxeq]
              · rw [if_neg hn] at hv
                rcases hgood3 n v hv with h | ⟨h1, h2, h3⟩
                · exact Or.inl h
                · refine Or.inr ⟨h1, ?_, ?_⟩
                  · intro d' hd'
                    obtain ⟨rd, hrd, hrd0, hrdlt⟩ := h2 d' hd'
                    have hdne' : name ≠ d' := by
                      intro he; rw [← he] at hrd
                      rw [hmark3] at hrd
                      cases hrd
                      omega
                    exact ⟨rd, by rw [alookup_setRank, if_neg hdne']; exact hrd, hrd0, hrdlt⟩
                  · have hcongr : ∀ d' ∈ lookupDeps g n,
                        rankVal (setRank ranks3 name (mx + 1)) d' = rankVal ranks3 d' := by
                      intro d' hd'
                      obtain ⟨rd, hrd, hrd0, _⟩ := h2 d' hd'
                      have hdne' : name ≠ d' := by
                        intro he; rw [← he] at hrd
                        rw [hmark3] at hrd
                        cases hrd
                        omega
                      unfold rankVal
                      rw [alookup_setRank, if_neg hdne']
                    rw [maxDepRank_congr hcongr]
                    exact h3
    · intro ds ranks acc mx ranks' hgood hok
      cases ds with
      | nil =>
        simp [computeRankFold] at hok
        obtain ⟨h1, h2⟩ := hok
        subst h1; subst h2
        exact ⟨fun n v hv => hv, le_refl acc, hgood, by simp, by simp⟩
      | cons d ds =>
        cases hre1 : computeRank g fuel d (lookupDeps g d) ranks with
        | error e => simp [computeRankFold, hre1] at hok
        | ok pr1 =>
          obtain ⟨r1, ranks1⟩ := pr1
          simp only [computeRankFold, hre1] at hok
          obtain ⟨hper1, hr1pos, hbind1, hgood1⟩ :=
            ih1 d (lookupDeps g d) ranks r1 ranks1 rfl hgood hre1
          obtain ⟨hper2, haccle, hgood2, hbnds, hexact⟩ :=
            ih2 ds ranks1 (max acc r1) mx ranks' hgood1 hok
          have hbind1' : alookup ranks' d = some r1 := hper2 _ _ hbind1
          refine ⟨fun n v hv => hper2 _ _ (hper1 _ _ hv),
            le_trans (le_max_left acc r1) haccle, hgood2, ?_, ?_⟩
          · intro d' hd'
            rcases List.mem_cons.1 hd' with h | h
            · subst h
              exact ⟨r1, hbind1', hr1pos, le_trans (le_max_right acc r1) haccle⟩
            · exact hbnds d' h
          · simp only [List.foldl_cons]
            rw [rankVal_of_alookup hbind1']
            exact hexact

/-! ### Fuel sufficiency: the embedding never runs out of fuel -/

/-- Cost potential: one unit (plus dependency-list length) for every table
entry whose rank is not yet recorded.  Each first visit to a key of `g`
consumes its cost. -/
def unrankedCost (g : DepsTable) (rs : RanksTable) : Nat :=
  ((g.filter (fun p => (alookup rs p.1).isNone)).map (fun p => p.2.length + 2)).sum

theorem alookup_append_single_ne {rs : RanksTable} {name q : String} {v : Int}
    (h : name ≠ q) : alookup (rs ++ [(name, v)]) q = alookup rs q := by
  rw [alookup_append]
  cases alookup rs q <;> simp [alookup, h]

theorem unrankedCost_mono {g : DepsTable} {rs rs' : RanksTable}
    (h : RankPersist rs rs') : unrankedCost g rs' ≤ unrankedCost g rs := by
  induction g with
  | nil => simp [unrankedCost]
  | cons p rest ih =>
    unfold unrankedCost at ih ⊢
    cases hl : alookup rs p.1 with
    | some v =>
      have hl' : alookup rs' p.1 = some v := h _ _ hl
      rw [List.filter_cons_of_neg (by simp [hl, hl']), List.filter_cons_of_neg (by simp [hl, hl'])]
      exact ih
    | none =>
      cases hl' : alookup rs' p.1 with
      | some w =>
        rw [List.filter_cons_of_neg (by simp [hl']), List.filter_cons_of_pos (by simp [hl])]
        rw [List.map_cons, List.sum_cons]
        have := ih
        omega
      | none =>
        rw [List.filter_cons_of_pos (by simp [hl, hl']), List.filter_cons_of_pos (by simp [hl, hl'])]
        rw [List.map_cons, List.sum_cons, List.map_cons, List.sum_cons]
        have := ih
        omega

theorem unrankedCost_nil_ranks (g : DepsTable) :
    unrankedCost g [] = (g.map (fun p => p.2.length + 2)).sum := by
  unfold unrankedCost
  have : g.filter (fun p => (alookup ([] : RanksTable) p.1).isNone) = g := by
    apply List.filter_eq_self.2
    intro p _
    simp [alookup]
  rw [this]

/-- Inserting the marker for a key of `g` pays off exactly that entry's
cost. -/
theorem unrankedCost_marker {g : DepsTable} {rs : RanksTable} {name : String}
    {ds : List String} (hnd : (g.map Prod.fst).Nodup)
    (hg : alookup g name = some ds) (habs : alookup rs name = none) :
    unrankedCost g (rs ++ [(name, -1)]) + ds.length + 2 = unrankedCost g rs := by
  induction g with
  | nil => simp [alookup] at hg
  | cons p rest ih =>
    obtain ⟨k1, ds1⟩ := p
    simp only [List.map_cons, List.nodup_cons] at hnd
    unfold unrankedCost at ih ⊢
    by_cases hk : k1 = name
    · subst hk
      simp [alookup] at hg
      subst hg
      have hmark : alookup (rs ++ [(k1, -1)]) k1 = some (-1) :=
        alookup_marker_self habs
      have hrest : (rest.filter (fun p => (alookup (rs ++ [(k1, -1)]) p.1).isNone))
          = rest.filter (fun p => (alookup rs p.1).isNone) := by
        apply List.filter_congr
        intro q hq
        have hne : k1 ≠ q.1 := by
          intro he
          exact hnd.1 (List.mem_map.2 ⟨q, hq, he.symm⟩)
        rw [alookup_append_single_ne hne]
      rw [List.filter_cons_of_neg (by simp [hmark]),
        List.filter_cons_of_pos (by simp [habs]), hrest]
      rw [List.map_cons, List.sum_cons]
      have hsnd : ((k1, ds1)).2.length = ds1.length := rfl
      omega
    · have hg' : alookup rest name = some ds := by
        simpa [alookup, hk] using hg
      have hne : name ≠ k1 := fun he => hk he.symm
      cases hl : alookup rs k1 with
      | some v =>
        rw [List.filter_cons_of_neg (by simp [alookup_append_single_ne hne, hl]),
          List.filter_cons_of_neg (by simp [hl])]
        exact ih hnd.2 hg'
      | none =>
        rw [List.filter_cons_of_pos (by simp [alookup_append_single_ne hne, hl]),
          List.filter_cons_of_pos (by simp [hl])]
        rw [List.map_cons, List.sum_cons, List.map_cons, List.sum_cons]
        have := ih hnd.2 hg'
        omega

theorem unrankedCost_marker_absent {g : DepsTable} {rs : RanksTable}
    {name : String} (hg : alookup g name = none) :
    unrankedCost g (rs ++ [(name, -1)]) = unrankedCost g rs := by
  induction g with
  | nil => simp [unrankedCost]
  | cons p rest ih =>
    have hk : p.1 ≠ name := by
      intro he
      obtain ⟨k1, ds1⟩ := p
      simp at he
      subst he
      simp [alookup] at hg
    have hg' : alookup rest name = none := by
      obtain ⟨k1, ds1⟩ := p
      simp only [alookup] at hg
      simp only at hk
      rw [if_neg hk] at hg
      exact hg
    unfold unrankedCost at ih ⊢
    have hne : name ≠ p.1 := fun he => hk he.symm
    cases hl : alookup rs p.1 with
    | some v =>
      rw [List.filter_cons_of_neg (by simp [alookup_append_single_ne hne, hl]),
        List.filter_cons_of_neg (by simp [hl])]
      exact ih hg'
    | none =>
      rw [List.filter_cons_of_pos (by simp [alookup_append_single_ne hne, hl]),
        List.filter_cons_of_pos (by simp [hl])]
      rw [List.map_cons, List.sum_cons, List.map_cons, List.sum_cons]
      have := ih hg'
      omega

/-- Error classification: with fuel at least the remaining cost potential,
the only error the rank computation can produce is the cyclic-dependency
error — the artificial fuel can never be the cause of failure. -/
theorem computeRank_error_cyclic (g : DepsTable)
    (hnd : (g.map Prod.fst).Nodup) : ∀ fuel : Nat,
    (∀ name deps ranks e,
      deps = lookupDeps g name →
      GoodRanks g ranks →
      unrankedCost g ranks + 2 ≤ fuel →
      computeRank g fuel name deps ranks = .error e → e = .cyclic) ∧
    (∀ ds ranks acc e,
      GoodRanks g ranks →
      unrankedCost g ranks + ds.length + 2 ≤ fuel →
      computeRankFold g fuel ds ranks acc = .error e → e = .cyclic) := by
  intro fuel
  induction fuel with
  | zero =>
    constructor
    · intro name deps ranks e _ _ hcost _
      omega
    · intro ds ranks acc e _ hcost _
      omega
  | succ fuel ih =>
    obtain ⟨ih1, ih2⟩ := ih
    constructor
    · intro name deps ranks e hdeps hgood hcost herr
      cases hmemo : alookup ranks name with
      | some r0 =>
        simp only [computeRank, hmemo] at herr
        by_cases h0 : r0 = -1
        · simp [h0] at herr
          exact herr.symm
        · simp [h0] at herr
      | none =>
        simp only [computeRank, hmemo] at herr
        have hgood1 : GoodRanks g (ranks ++ [(name, -1)]) :=
          goodRanks_append_marker hgood hmemo
        cases deps with
        | nil => simp at herr
        | cons d ds =>
          -- here `name` must be a key of `g`: unknown names have no deps
          have hsome : alookup g name = some (d :: ds) := by
            unfold lookupDeps at hdeps
            cases hgname : alookup g name with
            | none => rw [hgname] at hdeps; simp at hdeps
            | some ds0 => rw [hgname] at hdeps; simp at hdeps; rw [hdeps]
          have hmarkcost := unrankedCost_marker hnd hsome hmemo
          simp only [List.length_cons] at hmarkcost
          cases hre1 : computeRank g fuel d (lookupDeps g d) (ranks ++ [(name, -1)]) with
          | error e1 =>
            simp only [hre1] at herr
            have he1 : e1 = .cyclic := by
              apply ih1 d (lookupDeps g d) (ranks ++ [(name, -1)]) e1 rfl hgood1
                (by omega) hre1
            cases herr
            exact he1
          | ok pr1 =>
            obtain ⟨r1, ranks2⟩ := pr1
            obtain ⟨hper1, _, _, hgood2⟩ :=
              (computeRank_sound g fuel).1 d (lookupDeps g d)
                (ranks ++ [(name, -1)]) r1 ranks2 rfl hgood1 hre1
            have hcost2 : unrankedCost g ranks2 ≤ unrankedCost g (ranks ++ [(name, -1)]) :=
              unrankedCost_mono hper1
            cases hre2 : computeRankFold g fuel ds ranks2 r1 with
            | error e2 =>
              simp only [hre1, hre2] at herr
              have he2 : e2 = .cyclic := by
                apply ih2 ds ranks2 r1 e2 hgood2 (by omega) hre2
              cases herr
              exact he2
            | ok pr2 =>
              obtain ⟨mx, ranks3⟩ := pr2
              simp [hre1, hre2] at herr
    · intro ds ranks acc e hgood hcost herr
      cases ds with
      | nil => simp [computeRankFold] at herr
      | cons d ds =>
        simp only [List.length_cons] at hcost
        cases hre1 : computeRank g fuel d (lookupDeps g d) ranks with
        | error e1 =>
          simp only [computeRankFold, hre1] at herr
          have he1 : e1 = .cyclic := by
            apply ih1 d (lookupDeps g d) ranks e1 rfl hgood (by omega) hre1
          cases herr
          exact he1
        | ok pr1 =>
          obtain ⟨r1, ranks1⟩ := pr1
          simp only [computeRankFold, hre1] at herr
          obtain ⟨hper1, _, _, hgood1⟩ :=
            (computeRank_sound g fuel).1 d (lookupDeps g d) ranks r1 ranks1 rfl hgood hre1
          have hcost1 : unrankedCost g ranks1 ≤ unrankedCost g ranks :=
            unrankedCost_mono hper1
          exact ih2 ds ranks1 (max acc r1) e hgood1 (by omega) herr

theorem rankPersist_trans {r1 r2 r3 : RanksTable}
    (h1 : RankPersist r1 r2) (h2 : RankPersist r2 r3) : RankPersist r1 r3 :=
  fun n v hv => h2 n v (h1 n v hv)

theorem unrankedCost_le_rankFuel (g : DepsTable) (ranks : RanksTable) :
    unrankedCost g ranks + 2 ≤ rankFuel g := by
  have hmono : unrankedCost g ranks ≤ unrankedCost g [] :=
    unrankedCost_mono (fun n v hv => by simp [alookup] at hv)
  rw [unrankedCost_nil_ranks] at hmono
  unfold rankFuel
  omega

/-- Soundness and error classification of the entry loop of `_update`. -/
theorem updateRanks_go_facts (g : DepsTable) (hnd : (g.map Prod.fst).Nodup) :
    ∀ (rest : DepsTable) (ranks : RanksTable),
    GoodRanks g ranks → (∀ p ∈ rest, p ∈ g) →
    (∀ R, updateRanks.go g rest ranks = .ok R →
      GoodRanks g R ∧ RankPersist ranks R ∧
        ∀ p ∈ rest, ∃ r, alookup R p.1 = some r ∧ 0 ≤ r) ∧
    (∀ e, updateRanks.go g rest ranks = .error e → e = .cyclic) := by
  intro rest
  induction rest with
  | nil =>
    intro ranks hgood _
    constructor
    · intro R hok
      simp [updateRanks.go] at hok
      subst hok
      exact ⟨hgood, fun n v hv => hv, by simp⟩
    · intro e herr
      simp [updateRanks.go] at herr
  | cons p rest ih =>
    intro ranks hgood hmem
    obtain ⟨name, deps⟩ := p
    have hpg : (name, deps) ∈ g := hmem _ (List.mem_cons_self _ _)
    have hlg : alookup g name = some deps := alookup_of_mem_nodup hnd hpg
    have hdeps : deps = lookupDeps g name := by
      rw [lookupDeps, hlg]
      rfl
    have hcost := unrankedCost_le_rankFuel g ranks
    constructor
    · intro R hok
      cases hre : computeRank g (rankFuel g) name deps ranks with
      | error e => simp [updateRanks.go, hre] at hok
      | ok pr =>
        obtain ⟨r, ranks'⟩ := pr
        simp only [updateRanks.go, hre] at hok
        obtain ⟨hper, hr0, hbind, hgood'⟩ :=
          (computeRank_sound g (rankFuel g)).1 name deps ranks r ranks' hdeps hgood hre
        obtain ⟨ihok, _⟩ := ih ranks' hgood' (fun q hq => hmem q (List.mem_cons_of_mem _ hq))
        obtain ⟨hgR, hperR, hrestR⟩ := ihok R hok
        refine ⟨hgR, rankPersist_trans hper hperR, ?_⟩
        intro q hq
        rcases List.mem_cons.1 hq with h | h
        · subst h
          exact ⟨r, hperR _ _ hbind, hr0⟩
        · exact hrestR q h
    · intro e herr
      cases hre : computeRank g (rankFuel g) name deps ranks with
      | error e1 =>
        simp only [updateRanks.go, hre] at herr
        have he1 : e1 = .cyclic :=
          (computeRank_error_cyclic g hnd (rankFuel g)).1 name deps ranks e1
            hdeps hgood (by omega) hre
        cases herr
        exact he1
      | ok pr =>
        obtain ⟨r, ranks'⟩ := pr
        simp only [updateRanks.go, hre] at herr
        obtain ⟨_, _, _, hgood'⟩ :=
          (computeRank_sound g (rankFuel g)).1 name deps ranks r ranks' hdeps hgood hre
        obtain ⟨_, iherr⟩ := ih ranks' hgood' (fun q hq => hmem q (List.mem_cons_of_mem _ hq))
        exact iherr e herr

theorem updateRanks_ok_facts {g : DepsTable} {R : RanksTable}
    (hnd : (g.map Prod.fst).Nodup) (hok : updateRanks g = .ok R) :
    GoodRanks g R ∧ ∀ p ∈ g, ∃ r, alookup R p.1 = some r ∧ 0 ≤ r := by
  obtain ⟨hfacts, _⟩ := updateRanks_go_facts g hnd g [] (goodRanks_nil g) (fun p hp => hp)
  obtain ⟨h1, _, h3⟩ := hfacts R hok
  exact ⟨h1, h3⟩

theorem updateRanks_error_cyclic {g : DepsTable} {e : JsErr}
    (hnd : (g.map Prod.fst).Nodup) (herr : updateRanks g = .error e) :
    e = .cyclic := by
  obtain ⟨_, herrs⟩ := updateRanks_go_facts g hnd g [] (goodRanks_nil g) (fun p hp => hp)
  exact herrs e herr

/-! ### Cycles make `_update` fail -/

/-- `a` depends (directly) on `b` in the dependency table. -/
def depEdge (g : DepsTable) (a b : String) : Prop :=
  b ∈ lookupDeps g a

/-- The table contains a dependency cycle: some name reaches itself through
one or more dependency edges. -/
def HasDepCycle (g : DepsTable) : Prop :=
  ∃ n, Relation.TransGen (depEdge g) n n

theorem edge_rank_lt {g : DepsTable} {R : RanksTable}
    (hg : GoodRanks g R)
    (hall : ∀ p ∈ g, ∃ r, alookup R p.1 = some r ∧ 0 ≤ r)
    {a b : String} (he : depEdge g a b) : rankVal R b < rankVal R a := by
  unfold depEdge at he
  cases hga : alookup g a with
  | none =>
    rw [lookupDeps, hga] at he
    simp at he
  | some ds =>
    have hmem : b ∈ ds := by
      rw [lookupDeps, hga] at he
      simpa using he
    have hpa : (a, ds) ∈ g := mem_of_alookup hga
    obtain ⟨ra, hra, hra0⟩ := hall (a, ds) hpa
    rcases hg a ra hra with h | ⟨_, hdeps, _⟩
    · omega
    · obtain ⟨rd, hrd, hrd0, hrdlt⟩ := hdeps b (by rw [lookupDeps, hga]; simpa using hmem)
      rw [rankVal_of_alookup hra, rankVal_of_alookup hrd]
      exact hrdlt

theorem transGen_rank_lt {g : DepsTable} {R : RanksTable}
    (hg : GoodRanks g R)
    (hall : ∀ p ∈ g, ∃ r, alookup R p.1 = some r ∧ 0 ≤ r)
    {a b : String} (h : Relation.TransGen (depEdge g) a b) :
    rankVal R b < rankVal R a := by
  induction h with
  | single h => exact edge_rank_lt hg hall h
  | tail _ hbc ih => exact lt_trans (edge_rank_lt hg hall hbc) ih

/-- Any cyclic dependency table makes `_update` fail with the
cyclic-dependency error — success would produce a strictly edge-decreasing
rank function, impossible along a cycle, and the error can never be the
fuel artifact. -/
theorem updateRanks_cyclic {g : DepsTable}
    (hnd : (g.map Prod.fst).Nodup) (hcyc : HasDepCycle g) :
    updateRanks g = .error .cyclic := by
  cases hres : updateRanks g with
  | ok R =>
    exfalso
    obtain ⟨hg, hall⟩ := updateRanks_ok_facts hnd hres
    obtain ⟨n, hn⟩ := hcyc
    exact lt_irrefl _ (transGen_rank_lt hg hall hn)
  | error e =>
    rw [updateRanks_error_cyclic hnd hres]

/-- On success, the rank table satisfies the spec's recurrence: rank 0 for a
name with no dependencies, `1 + max` of the dependency ranks otherwise. -/
theorem updateRanks_recurrence {g : DepsTable} {R : RanksTable}
    (hnd : (g.map Prod.fst).Nodup) (hok : updateRanks g = .ok R) :
    ∀ p ∈ g, ∃ r, alookup R p.1 = some r ∧ 0 ≤ r ∧
      (∀ d ∈ p.2, ∃ rd, alookup R d = some rd ∧ 0 ≤ rd ∧ rd < r) ∧
      r = (if p.2 = [] then 0 else maxDepRank R p.2 + 1) := by
  obtain ⟨hg, hall⟩ := updateRanks_ok_facts hnd hok
  intro p hp
  obtain ⟨name, ds⟩ := p
  obtain ⟨r, hr, hr0⟩ := hall (name, ds) hp
  have hld : lookupDeps g name = ds := by
    rw [lookupDeps, alookup_of_mem_nodup hnd hp]
    rfl
  rcases hg name r hr with h | ⟨_, h2, h3⟩
  · exfalso; omega
  · rw [hld] at h2 h3
    exact ⟨r, hr, hr0, h2, h3⟩

theorem alookup_none_not_key {κ α : Type} [DecidableEq κ]
    {l : List (κ × α)} {k : κ} (h : alookup l k = none) :
    k ∉ l.map Prod.fst := by
  induction l with
  | nil => simp
  | cons p rest ih =>
    obtain ⟨k1, v1⟩ := p
    by_cases h1 : k1 = k
    · simp [alookup, h1] at h
    · simp [alookup, h1] at h
      simp [h1, ih h]
      exact fun he => h1 he.symm

theorem aset_keys_of_isSome {κ α : Type} [DecidableEq κ]
    {l : List (κ × α)} {k : κ} (v : α) (h : (alookup l k).isSome) :
    (aset l k v).map Prod.fst = l.map Prod.fst := by
  induction l with
  | nil => simp [alookup] at h
  | cons p rest ih =>
    obtain ⟨k1, v1⟩ := p
    by_cases h1 : k1 = k
    · simp [aset, h1]
    · simp [alookup, h1] at h
      simp [aset, h1, ih h]

theorem ensureKey_nodup {g : DepsTable} {n : String}
    (h : (g.map Prod.fst).Nodup) : ((ensureKey g n).map Prod.fst).Nodup := by
  unfold ensureKey
  cases hl : alookup g n with
  | some v => simp [hl, h]
  | none =>
    simp only [hl, Bool.false_eq_true, if_false, Option.isSome_none]
    have hnk := alookup_none_not_key hl
    rw [List.map_append]
    refine List.Nodup.append h (List.nodup_singleton n) ?_
    intro a ha hb
    simp at hb
    subst hb
    exact hnk ha

theorem addToSet_keys (g : DepsTable) (n d : String) :
    (addToSet g n d).map Prod.fst = g.map Prod.fst := by
  unfold addToSet
  cases hl : alookup g n with
  | none => rfl
  | some ds =>
    exact aset_keys_of_isSome _ (by simp [hl])

theorem addDependencyTable_nodup {g : DepsTable} {name : String}
    {deps : List String} (h : (g.map Prod.fst).Nodup) :
    ((addDependencyTable g name deps).map Prod.fst).Nodup := by
  unfold addDependencyTable
  suffices hgen : ∀ (ds : List String) (acc : DepsTable),
      ((acc.map Prod.fst).Nodup) →
      (((ds.foldl (fun acc d => addToSet (ensureKey acc d) name d) acc).map
        Prod.fst).Nodup) by
    exact hgen deps (ensureKey g name) (ensureKey_nodup h)
  intro ds
  induction ds with
  | nil => intro acc hacc; exact hacc
  | cons d rest ih =>
    intro acc hacc
    simp only [List.foldl_cons]
    apply ih
    rw [addToSet_keys]
    exact ensureKey_nodup hacc

/-- Graph-level cycle detection at registration time:
`DependencyGraph.addDependency` fails with the cyclic-dependency error
whenever the updated table contains a cycle. -/
theorem addDependency_cyclic {dg : DependencyGraph} {name : String}
    {deps : List String}
    (hnd : (dg.deps.map Prod.fst).Nodup)
    (hcyc : HasDepCycle (addDependencyTable dg.deps name deps)) :
    dg.addDependency name deps = .error .cyclic := by
  unfold DependencyGraph.addDependency
  simp only [updateRanks_cyclic (addDependencyTable_nodup hnd) hcyc]

/-! ### `src/ui/State.js` — the resource store

JavaScript values that the store traffics in: numbers, strings, plain
objects (string-keyed, insertion ordered) and `undefined`. -/

inductive Value where
  | undef
  | num (n : Int)
  | str (s : String)
  | obj (fields : List (String × Value))
deriving Repr

/-- JavaScript truthiness for the values of the model (`getOldValue` uses
`||`). -/
def Value.truthy : Value → Bool
  | .undef => false
  | .num n => n != 0
  | .str s => s != ""
  | .obj _ => true

/-- The `State` object: `_data`, `_changes`, `_oldValues`, `_dirty` and the
`_isPropagating` re-entrancy flag. -/
structure JsState where
  data : List (String × Value)
  changes : List (String × Value)
  oldValues : List (String × Value)
  dirty : List String
  isPropagating : Bool
deriving Repr

/-- `new State(initialState)` (the `window.appState` global is ignored). -/
def JsState.init (data : List (String × Value)) : JsState :=
  { data := data, changes := [], oldValues := [], dirty := [],
    isPropagating := false }

/-- `get(key)`; a missing property reads as `undefined`. -/
def JsState.get (st : JsState) (k : String) : Value :=
  ((alookup st.data k).getD .undef)

/-- `getChange(key)`. -/
def JsState.getChange (st : JsState) (k : String) : Value :=
  ((alookup st.changes k).getD .undef)

/-- `getOldValue(key)`: `this._oldValues[key] || this._data[key]` — note the
JavaScript `||` falls through to the current value when the stored old value
is falsy. -/
def JsState.getOldValue (st : JsState) (k : String) : Value :=
  let ov := (alookup st.oldValues k).getD .undef
  if ov.truthy then ov else st.get k

/-- `isDirty(key)` (`_dirty` only ever stores `true`, so presence is
truthiness). -/
def JsState.isDirty (st : JsState) (k : String) : Bool :=
  st.dirty.contains k

/-- Mark a name dirty (`this._dirty[key] = true`). -/
def addDirty (dirty : List String) (k : String) : List String :=
  if k ∈ dirty then dirty else dirty ++ [k]

/-- `State._set(key, value)`: snapshot the old value and set the dirty flag
on the first write of a pass, then store the value. -/
def JsState._set (st : JsState) (k : String) (v : Value) : JsState :=
  if st.isDirty k then { st with data := aset st.data k v }
  else
    { st with
      oldValues := aset st.oldValues k (st.get k),
      dirty := addDirty st.dirty k,
      data := aset st.data k v }

/-- `Object.assign(target, hash)`: merge into an object in place; throw on
`undefined`; a primitive target is boxed and the box discarded, so the
stored value is unchanged. -/
def objAssign (target : Value) (hash : List (String × Value)) :
    Except JsErr Value :=
  match target with
  | .obj fs => .ok (.obj (hash.foldl (fun acc p => aset acc p.1 p.2) fs))
  | .undef => .error .typeError
  | v => .ok v

/-- `State._extend(key, hash)`: on the first write of a pass snapshot the old
value, replace the value with a fresh `{}` and mark dirty; then merge the
hash into the stored value. -/
def JsState._extend (st : JsState) (k : String)
    (hash : List (String × Value)) : Except JsErr JsState :=
  if st.isDirty k then
    match objAssign (st.get k) hash with
    | .error e => .error e
    | .ok v => .ok { st with data := aset st.data k v }
  else
    match objAssign (.obj []) hash with
    | .error e => .error e
    | .ok v =>
      .ok { st with
        oldValues := aset st.oldValues k (st.get k),
        dirty := addDirty st.dirty k,
        data := aset st.data k v }

/-- `State._setChange(key, change)`. -/
def JsState._setChange (st : JsState) (k : String) (c : Value) : JsState :=
  { st with changes := aset st.changes k c, dirty := addDirty st.dirty k }

/-- `State._setDirty(key)`. -/
def JsState._setDirty (st : JsState) (k : String) : JsState :=
  { st with dirty := addDirty st.dirty k }

/-- `State._reset()`: clear all dirty flags, change payloads and old values
at once. -/
def JsState._reset (st : JsState) : JsState :=
  { st with dirty := [], changes := [], oldValues := [] }

/-! ### `src/ui/StateEngine.js` — entries, slots, engine -/

/-- A reducer `Entry` as constructed by `new Entry(inputs, outputs, opts,
owner, handler)`.  `handler` and `owner` are identified by numbers; the
behaviour of a handler is supplied separately (`Handlers`).  `path` models
the property `DocumentChangeSlot.addObserver` assigns before the entry is
frozen (absent, i.e. `none`, for value-slot entries).  The class never
assigns a `slot` property — `disconnect` nevertheless reads `entry.slot`. -/
structure Entry where
  inputs : List String
  outputs : List String
  opts : List (String × Option String)
  owner : Nat
  handler : Nat
  path : Option String
deriving Repr, DecidableEq

/-- An element of the `inputs` argument of `addReducer`: either a plain
resource name or a structured spec `{ resource, path }`.  The `path` array
is represented by the string key JavaScript coerces it to when it is used to
index `byPath`. -/
inductive InputSpec where
  | plain (name : String)
  | scoped (resource : String) (path : Option String)
deriving Repr, DecidableEq

/-- `_extractResourceOptions(inputs)`: replace structured specs by their
resource name in place and collect the remaining options per resource. -/
def extractResourceOptions (inputs : List InputSpec) :
    List String × List (String × Option String) :=
  inputs.foldl
    (fun acc i =>
      match i with
      | .plain n => (acc.1 ++ [n], acc.2)
      | .scoped res p => (acc.1 ++ [res], aset acc.2 res p))
    ([], [])

/-- The two slot classes: `ValueSlot(key, inputs)` and
`DocumentChangeSlot(key)` (whose `inputs` is hardwired to `['document']` and
which keeps its observers in a by-path map). -/
inductive Slot where
  | value (key : String) (inputs : List String) (observers : List Entry)
  | doc (key : String) (byPath : List (String × List Entry))
deriving Repr, DecidableEq

def Slot.inputs : Slot → List String
  | .value _ ins _ => ins
  | .doc _ _ => ["document"]

def Slot.key : Slot → String
  | .value k _ _ => k
  | .doc k _ => k

/-- `slot.addObserver(entry)`; the document slot assigns `entry.path` (from
`entry.opts.document.path`, defaulting to the reserved key) and buckets the
entry under it.  Returns the (possibly path-assigned) entry alongside, since
the JavaScript registry aliases the same mutated object. -/
def Slot.addObserver : Slot → Entry → Slot × Entry
  | .value k ins obs, e => (.value k ins (obs ++ [e]), e)
  | .doc k byPath, e =>
    let p :=
      match alookup e.opts "document" with
      | some (some path) => path
      | _ => "__default__"
    let e' := { e with path := some p }
    let bucket := (alookup byPath p).getD []
    (.doc k (aset byPath p (bucket ++ [e'])), e')

/-- `indexOf` + `splice(idx, 1)`: drop the first occurrence, if any. -/
def removeFirst {α : Type} [DecidableEq α] : List α → α → List α
  | [], _ => []
  | x :: rest, a => if x = a then rest else x :: removeFirst rest a

/-- `slot.removeObserver(entry)`; the document slot indexes `byPath` with
`entry.path` and crashes if the bucket is missing. -/
def Slot.removeObserver : Slot → Entry → Except JsErr Slot
  | .value k ins obs, e => .ok (.value k ins (removeFirst obs e))
  | .doc k byPath, e =>
    let p := e.path.getD "undefined"
    match alookup byPath p with
    | none => .error .typeError
    | some entries => .ok (.doc k (aset byPath p (removeFirst entries e)))

/-- The rank of a slot: an integer, or `-Infinity` (`Math.max()` of an empty
spread). -/
inductive JsRank where
  | negInf
  | fin (r : Int)
deriving DecidableEq, Repr

/-- The `StateEngine` object: dependency graph, slot map (insertion
ordered), cached schedule (slot keys with the ranks assigned at schedule
time; `propagate` resolves keys against the live slot map, mirroring the
JavaScript aliasing of slot objects), and the owner registry. -/
structure StateEngine where
  deps : DependencyGraph
  slots : List (String × Slot)
  schedule : Option (List (String × JsRank))
  registry : List (Nat × List Entry)
deriving Repr


/-- `Math.max` on ranks. -/
def JsRank.max : JsRank → JsRank → JsRank
  | .negInf, b => b
  | a, .negInf => a
  | .fin a, .fin b => .fin (Max.max a b)

/-- The sort comparator `a.rank - b.rank < 0`; with two `-Infinity` ranks the
difference is `NaN`, which the sort treats as "equal" (not less). -/
def JsRank.ltb : JsRank → JsRank → Bool
  | .negInf, .fin _ => true
  | .negInf, .negInf => false
  | .fin _, .negInf => false
  | .fin a, .fin b => a < b

def JsRank.leb (a b : JsRank) : Bool := !(JsRank.ltb b a)

/-- `DependencyGraph.getMaximumRank(names)`: unknown names read as `-1`;
`Math.max()` over the empty spread is `-Infinity`. -/
def DependencyGraph.getMaximumRank (dg : DependencyGraph)
    (names : List String) : Except JsErr (JsRank × DependencyGraph) :=
  match dg.getRanks with
  | .error e => .error e
  | .ok (rs, dg') =>
    .ok ((names.map (fun n => JsRank.fin ((alookup rs n).getD (-1)))).foldl
          JsRank.max .negInf, dg')

/-- `_getSlotKey(inputs)`. -/
def slotKey (inputs : List String) : String :=
  "(" ++ String.intercalate "," inputs ++ ")"

/-- `Array.prototype.sort()` on strings (default lexicographic comparator),
as an insertion sort. -/
def insertString (s : String) : List String → List String
  | [] => [s]
  | x :: rest => if x < s then x :: insertString s rest else s :: x :: rest

def sortStrings : List String → List String
  | [] => []
  | x :: rest => insertString x (sortStrings rest)

/-- Stable sort of the slot list by ascending rank
(`slots.sort((a, b) => a.rank - b.rank)`; JavaScript array sort is stable,
so earlier-registered slots stay first among equal ranks). -/
def insertSched (x : String × JsRank) :
    List (String × JsRank) → List (String × JsRank)
  | [] => [x]
  | y :: rest => if JsRank.ltb y.2 x.2 then y :: insertSched x rest else x :: y :: rest

def sortSched : List (String × JsRank) → List (String × JsRank)
  | [] => []
  | x :: rest => insertSched x (sortSched rest)

/-- The `map(this._slots, slot => slot.rank = deps.getMaximumRank(...))`
pass of `_computeSchedule`, threading the graph's lazy rank cache. -/
def rankSlots : DependencyGraph → List (String × Slot) →
    Except JsErr (List (String × JsRank) × DependencyGraph)
  | dg, [] => .ok ([], dg)
  | dg, (k, s) :: rest =>
    match dg.getMaximumRank s.inputs with
    | .error e => .error e
    | .ok (r, dg') =>
      match rankSlots dg' rest with
      | .error e => .error e
      | .ok (items, dg2) => .ok ((k, r) :: items, dg2)

/-- `StateEngine._computeSchedule()` (the `console.log` is ignored). -/
def StateEngine.computeSchedule (eng : StateEngine) :
    Except JsErr StateEngine :=
  match rankSlots eng.deps eng.slots with
  | .error e => .error e
  | .ok (items, dg') =>
    .ok { eng with deps := dg', schedule := some (sortSched items) }

/-- `name.charAt(0) !== AT` test of `_shouldTrigger`: the first character
is the `@` marker (an empty name has no first character and is not
pseudo). -/
def isPseudo (n : String) : Bool :=
  match n.data with
  | [] => false
  | c :: _ => c = '@'

/-- The loop of `StateEngine._shouldTrigger`: return `true` on the first
dirty non-pseudo input, count non-pseudo inputs, and trigger unconditionally
when there are none. -/
def shouldTriggerLoop (st : JsState) : List String → Nat → Bool
  | [], count => count == 0
  | n :: rest, count =>
    if isPseudo n then shouldTriggerLoop st rest count
    else if st.isDirty n then true
    else shouldTriggerLoop st rest (count + 1)

def shouldTrigger (st : JsState) (inputs : List String) : Bool :=
  shouldTriggerLoop st inputs 0

/-- The writes a handler can perform on the store during notification
(`State.set` / `State.extend` / `State.setChange` / `State._setDirty`). -/
inductive WAction where
  | set (key : String) (v : Value)
  | extend (key : String) (hash : List (String × Value))
  | setChange (key : String) (change : Value)
  | setDirty (key : String)
deriving Repr

/-- Handler behaviour: the list of store writes handler `h` performs when
invoked with the given arguments.  (Handlers observe the store through the
arguments and the recorded state snapshot; their writes go through the same
public API as any caller's.) -/
abbrev Handlers := Nat → List Value → List WAction

/-- Observable events of a propagation pass: a slot being notified, and a
handler being invoked with its arguments; both record the store state at
that point. -/
inductive Event where
  | notify (slotKey : String) (rank : JsRank) (st : JsState)
  | invoke (handler : Nat) (owner : Nat) (args : List Value) (st : JsState)
deriving Repr

abbrev PropResult := Except JsErr (StateEngine × JsState × List Event)

/-- The type of `State._propagate` as seen by a handler's nested write. -/
abbrev PropFn := StateEngine → JsState → PropResult

/-- `Entry.exec(state)` argument vector: `RESOURCES` registers exactly
`'document'` with type `'ref'`, whose argument is the change instead of the
value. -/
def execArgs (st : JsState) (inputs : List String) : List Value :=
  inputs.map (fun n => if n = "document" then st.getChange n else st.get n)

def Value.getField : Value → String → Value
  | .obj fs, k => (alookup fs k).getD .undef
  | _, _ => (.undef)

/-- The keys `forEach` enumerates over an object (nothing for
non-objects). -/
def Value.objKeys : Value → List String
  | .obj fs => fs.map Prod.fst
  | _ => []

def Value.isUndef : Value → Bool
  | .undef => true
  | _ => false

/-! ### Notification: slots invoke their entries, entries run handlers.

`prop` is the `State._propagate` continuation a handler's nested write calls
into; during a pass the re-entrancy flag makes it a no-op (proved below),
outside a pass it is the full propagation (tied in `propagatePublicRec`). -/

/-- A handler write applied through the public `State` API: the `_set`-style
primitive followed by `this._propagate()` (except `_setDirty`, which does
not trigger a reflow). -/
def applyAction (prop : PropFn) (eng : StateEngine) (st : JsState) :
    WAction → PropResult
  | .set k v => prop eng (st._set k v)
  | .extend k hash =>
    match st._extend k hash with
    | .error e => .error e
    | .ok st1 => prop eng st1
  | .setChange k c => prop eng (st._setChange k c)
  | .setDirty k => .ok (eng, st._setDirty k, [])

def runActions (prop : PropFn) (eng : StateEngine) (st : JsState) :
    List WAction → PropResult
  | [] => .ok (eng, st, [])
  | a :: rest =>
    match applyAction prop eng st a with
    | .error e => .error e
    | .ok (eng1, st1, tr1) =>
      match runActions prop eng1 st1 rest with
      | .error e => .error e
      | .ok (eng2, st2, tr2) => .ok (eng2, st2, tr1 ++ tr2)

/-- `Entry.exec(state)`: build the argument vector and call the handler. -/
def execEntry (H : Handlers) (prop : PropFn) (eng : StateEngine)
    (st : JsState) (e : Entry) : PropResult :=
  let args := execArgs st e.inputs
  match runActions prop eng st (H e.handler args) with
  | .error er => .error er
  | .ok (eng1, st1, tr) => .ok (eng1, st1, .invoke e.handler e.owner args st :: tr)

def runEntries (H : Handlers) (prop : PropFn) (eng : StateEngine)
    (st : JsState) : List Entry → PropResult
  | [] => .ok (eng, st, [])
  | e :: rest =>
    match execEntry H prop eng st e with
    | .error er => .error er
    | .ok (eng1, st1, tr1) =>
      match runEntries H prop eng1 st1 rest with
      | .error er => .error er
      | .ok (eng2, st2, tr2) => .ok (eng2, st2, tr1 ++ tr2)

/-- The `forEach(docChange.updated, ...)` loop of
`DocumentChangeSlot.notifyObservers`: `_notifyObserversWithKey` for each
affected path key (skipping keys with no bucket). -/
def runPathKeys (H : Handlers) (prop : PropFn) (eng : StateEngine)
    (st : JsState) (byPath : List (String × List Entry)) :
    List String → PropResult
  | [] => .ok (eng, st, [])
  | k :: rest =>
    match runEntries H prop eng st ((alookup byPath k).getD []) with
    | .error er => .error er
    | .ok (eng1, st1, tr1) =>
      match runPathKeys H prop eng1 st1 byPath rest with
      | .error er => .error er
      | .ok (eng2, st2, tr2) => .ok (eng2, st2, tr1 ++ tr2)

/-- `slot.notifyObservers(state)`.  A value slot executes its observers in
registration order.  The document slot reads `state.getChange('document')`
(a `TypeError` if that is `undefined`), walks the affected path keys of the
diff's `updated` object, and finally notifies the `__default__` bucket
once. -/
def notifySlot (H : Handlers) (prop : PropFn) (eng : StateEngine)
    (st : JsState) : Slot → PropResult
  | .value _ _ observers => runEntries H prop eng st observers
  | .doc _ byPath =>
    let dc := st.getChange "document"
    if dc.isUndef then .error .typeError
    else
      match runPathKeys H prop eng st byPath (dc.getField "updated").objKeys with
      | .error er => .error er
      | .ok (eng1, st1, tr1) =>
        match runEntries H prop eng1 st1 ((alookup byPath "__default__").getD []) with
        | .error er => .error er
        | .ok (eng2, st2, tr2) => .ok (eng2, st2, tr1 ++ tr2)

/-- The `this._schedule.forEach` loop of `StateEngine.propagate`: notify
exactly the slots whose `_shouldTrigger` holds at their visit. -/
def runSchedule (H : Handlers) (prop : PropFn) (eng : StateEngine)
    (st : JsState) : List (String × JsRank) → PropResult
  | [] => .ok (eng, st, [])
  | (key, rank) :: rest =>
    match alookup eng.slots key with
    | none => .error .typeError
    | some slot =>
      if shouldTrigger st slot.inputs then
        match notifySlot H prop eng st slot with
        | .error er => .error er
        | .ok (eng1, st1, tr1) =>
          match runSchedule H prop eng1 st1 rest with
          | .error er => .error er
          | .ok (eng2, st2, tr2) =>
            .ok (eng2, st2, .notify key rank st :: (tr1 ++ tr2))
      else runSchedule H prop eng st rest

/-- `StateEngine.propagate()`: compute the schedule when invalidated, then
walk it. -/
def enginePropagate (H : Handlers) (prop : PropFn) (eng : StateEngine)
    (st : JsState) : PropResult :=
  match eng.schedule with
  | some sched => runSchedule H prop eng st sched
  | none =>
    match eng.computeSchedule with
    | .error e => .error e
    | .ok eng' => runSchedule H prop eng' st (eng'.schedule.getD [])

/-- `State._propagate()`: the re-entrancy guard makes a nested call a no-op;
the outermost call sets the flag, runs the engine, `_reset`s the store and
clears the flag.  On an error the exception propagates (the `finally` only
clears the flag; the model does not track the store past an exception).
The fuel only feeds the next nesting level and is shown irrelevant by the
guard lemma. -/
def propagatePublicRec (H : Handlers) : Nat → PropFn
  | fuel, eng, st =>
    if st.isPropagating then .ok (eng, st, [])
    else
      match fuel with
      | 0 => .error .fuelOut
      | f + 1 =>
        match enginePropagate H (propagatePublicRec H f) eng
            { st with isPropagating := true } with
        | .error e => .error e
        | .ok (eng1, st1, tr) =>
          .ok (eng1, { st1._reset with isPropagating := false }, tr)

/-- `State.set(key, value)`: `_set` then `_propagate`. -/
def JsState.setPublic (H : Handlers) (fuel : Nat) (eng : StateEngine)
    (st : JsState) (k : String) (v : Value) : PropResult :=
  propagatePublicRec H fuel eng (st._set k v)

/-- `State.setChange(key, change)`. -/
def JsState.setChangePublic (H : Handlers) (fuel : Nat) (eng : StateEngine)
    (st : JsState) (k : String) (c : Value) : PropResult :=
  propagatePublicRec H fuel eng (st._setChange k c)

/-- `State.extend(key, hash)`. -/
def JsState.extendPublic (H : Handlers) (fuel : Nat) (eng : StateEngine)
    (st : JsState) (k : String) (hash : List (String × Value)) : PropResult :=
  match st._extend k hash with
  | .error e => .error e
  | .ok st1 => propagatePublicRec H fuel eng st1

/-! ### Registration and disconnection -/

def StateEngine.new : StateEngine :=
  { deps := DependencyGraph.empty, slots := [], schedule := none,
    registry := [] }

/-- `outputs.forEach(name => this._deps.addDependency(name, inputs))`. -/
def addOutputDeps : DependencyGraph → List String → List String →
    Except JsErr DependencyGraph
  | dg, [], _ => .ok dg
  | dg, o :: os, names =>
    match dg.addDependency o names with
    | .error e => .error e
    | .ok dg' => addOutputDeps dg' os names

/-- `_getRegistration(owner)` followed by `entries.push(entry)`. -/
def pushRegistry (reg : List (Nat × List Entry)) (owner : Nat) (e : Entry) :
    List (Nat × List Entry) :=
  aset reg owner (((alookup reg owner).getD []) ++ [e])

/-- `StateEngine.addReducer(outputs, inputs, handler, owner)` with the
arguments already in array form (the scalar-to-array normalization is the
caller's shape, not observable here).  The handler is a function by
construction of `Handlers`, so the `isFunction` check passes.  On the first
registration of a sorted input set a slot is created (`DocumentChangeSlot`
exactly when the input list is the single resource `'document'`, the only
`RESOURCES` entry), the dependency edges are registered — a cyclic
dependency error aborts the registration — and the schedule is invalidated;
an existing slot only gains an observer.  The returned entry is the one the
registry aliases (with `path` assigned by a document slot). -/
def StateEngine.addReducer (eng : StateEngine) (outputs : List String)
    (inputs : List InputSpec) (handler owner : Nat) :
    Except JsErr (StateEngine × Entry) :=
  let (names, opts) := extractResourceOptions inputs
  let entry0 : Entry :=
    { inputs := names, outputs := outputs, opts := opts, owner := owner,
      handler := handler, path := none }
  let sortedInputs := sortStrings names
  let key := slotKey sortedInputs
  match alookup eng.slots key with
  | some slot =>
    let (slot', entry') := slot.addObserver entry0
    .ok ({ eng with
            slots := aset eng.slots key slot',
            registry := pushRegistry eng.registry owner entry' }, entry')
  | none =>
    let slot : Slot :=
      if names = ["document"] then .doc key [] else .value key sortedInputs []
    match addOutputDeps eng.deps outputs names with
    | .error e => .error e
    | .ok dg' =>
      let (slot', entry') := slot.addObserver entry0
      .ok ({ deps := dg',
             slots := aset eng.slots key slot',
             schedule := none,
             registry := pushRegistry eng.registry owner entry' }, entry')

/-- `_getRegistration(owner)` as used by `disconnect` (it inserts an empty
list for an unknown owner). -/
def StateEngine.getRegistration (eng : StateEngine) (owner : Nat) :
    List Entry × StateEngine :=
  match alookup eng.registry owner with
  | some entries => (entries, eng)
  | none => ([], { eng with registry := aset eng.registry owner [] })

/-- The `entries.forEach` loop of `disconnect`: `this._slots[entry.slot]`
— the `Entry` class never assigns a `slot` property, so the property read
yields `undefined` and the slot map is indexed with the coerced key
`"undefined"`; when that lookup misses, `slot.removeObserver(entry)` is a
`TypeError` on `undefined`. -/
def disconnectLoop : StateEngine → List Entry → Except JsErr StateEngine
  | acc, [] => .ok acc
  | acc, e :: rest =>
    match alookup acc.slots "undefined" with
    | none => .error .typeError
    | some slot =>
      match slot.removeObserver e with
      | .error er => .error er
      | .ok slot' =>
        disconnectLoop { acc with slots := aset acc.slots "undefined" slot' } rest

/-- `StateEngine.disconnect(owner)`. -/
def StateEngine.disconnect (eng : StateEngine) (owner : Nat) :
    Except JsErr StateEngine :=
  let (entries, eng0) := eng.getRegistration owner
  disconnectLoop eng0 entries

/-! ### Basic facts about propagation -/

def Event.stateOf : Event → JsState
  | .notify _ _ s => s
  | .invoke _ _ _ s => s

def Event.isInvoke : Event → Bool
  | .invoke _ _ _ _ => true
  | .notify _ _ _ => false

/-- The slot notifications of a trace, in order. -/
def notifyKeyRanks : List Event → List (String × JsRank)
  | [] => []
  | .notify k r _ :: rest => (k, r) :: notifyKeyRanks rest
  | .invoke _ _ _ _ :: rest => notifyKeyRanks rest

theorem notifyKeyRanks_append (a b : List Event) :
    notifyKeyRanks (a ++ b) = notifyKeyRanks a ++ notifyKeyRanks b := by
  induction a with
  | nil => rfl
  | cons e rest ih => cases e <;> simp [notifyKeyRanks, ih]

theorem notifyKeyRanks_of_invokes {tr : List Event}
    (h : ∀ ev ∈ tr, ev.isInvoke = true) : notifyKeyRanks tr = [] := by
  induction tr with
  | nil => rfl
  | cons e rest ih =>
    cases e with
    | notify k r s => exact absurd (h _ (List.mem_cons_self _ _)) (by simp [Event.isInvoke])
    | invoke h' o a s =>
      exact (by simp [notifyKeyRanks]; exact ih fun ev hev => h ev (List.mem_cons_of_mem _ hev))

/-- The re-entrancy guard: `_propagate` during a pass is a no-op — a nested
`set`/`setChange`/`extend` never starts a nested propagation. -/
theorem propagate_guard (H : Handlers) (fuel : Nat) (eng : StateEngine)
    (st : JsState) (h : st.isPropagating = true) :
    propagatePublicRec H fuel eng st = .ok (eng, st, []) := by
  cases fuel <;> simp [propagatePublicRec, h]

section Invariants

variable {H : Handlers} {prop : PropFn} {P : JsState → Prop}

/-- Hypotheses for propagation-invariant preservation: `P` implies the
re-entrancy flag is up (so `prop`, i.e. `_propagate`, is a guarded no-op)
and `P` survives every store write a handler can make. -/
structure PropInvHyp (prop : PropFn) (P : JsState → Prop) : Prop where
  flag : ∀ st, P st → st.isPropagating = true
  prop_id : ∀ eng st, st.isPropagating = true → prop eng st = .ok (eng, st, [])
  wset : ∀ st k v, P st → P (st._set k v)
  wextend : ∀ st k hs st', P st → JsState._extend st k hs = .ok st' → P st'
  wsetChange : ∀ st k c, P st → P (st._setChange k c)
  wsetDirty : ∀ st k, P st → P (st._setDirty k)

/-- Any state predicate as in `PropInvHyp` is preserved by a handler write,
which moreover cannot mutate the engine nor emit events. -/
theorem applyAction_inv (hI : PropInvHyp prop P)
    (a : WAction) (eng : StateEngine) (st : JsState)
    {eng' : StateEngine} {st' : JsState} {tr : List Event} (hP : P st)
    (hok : applyAction prop eng st a = .ok (eng', st', tr)) :
    eng' = eng ∧ P st' ∧ tr = [] := by
  cases a with
  | set k v =>
    have h1 : P (st._set k v) := hI.wset st k v hP
    rw [applyAction, hI.prop_id eng _ (hI.flag _ h1)] at hok
    cases hok
    exact ⟨rfl, h1, rfl⟩
  | extend k hs =>
    rw [applyAction] at hok
    cases hex : JsState._extend st k hs with
    | error e => simp only [hex] at hok; cases hok
    | ok st1 =>
      simp only [hex] at hok
      have h1 : P st1 := hI.wextend st k hs st1 hP hex
      rw [hI.prop_id eng _ (hI.flag _ h1)] at hok
      cases hok
      exact ⟨rfl, h1, rfl⟩
  | setChange k c =>
    have h1 : P (st._setChange k c) := hI.wsetChange st k c hP
    rw [applyAction, hI.prop_id eng _ (hI.flag _ h1)] at hok
    cases hok
    exact ⟨rfl, h1, rfl⟩
  | setDirty k =>
    rw [applyAction] at hok
    cases hok
    exact ⟨rfl, hI.wsetDirty st k hP, rfl⟩

theorem runActions_inv (hI : PropInvHyp prop P)
    (acts : List WAction) : ∀ (eng : StateEngine) (st : JsState)
    {eng' : StateEngine} {st' : JsState} {tr : List Event}, P st →
    runActions prop eng st acts = .ok (eng', st', tr) →
    eng' = eng ∧ P st' ∧ tr = [] := by
  induction acts with
  | nil =>
    intro eng st eng' st' tr hP hok
    rw [runActions] at hok
    cases hok
    exact ⟨rfl, hP, rfl⟩
  | cons a rest ih =>
    intro eng st eng' st' tr hP hok
    rw [runActions] at hok
    cases ha : applyAction prop eng st a with
    | error e => rw [ha] at hok; cases hok
    | ok res1 =>
      obtain ⟨eng1, st1, tr1⟩ := res1
      simp only [ha] at hok
      obtain ⟨he1, hP1, ht1⟩ := applyAction_inv hI a eng st hP ha
      cases hr : runActions prop eng1 st1 rest with
      | error e => simp only [hr] at hok; cases hok
      | ok res2 =>
        obtain ⟨eng2, st2, tr2⟩ := res2
        simp only [hr] at hok
        obtain ⟨he2, hP2, ht2⟩ := ih eng1 st1 hP1 hr
        cases hok
        subst he1
        subst he2
        subst ht1
        subst ht2
        exact ⟨rfl, hP2, rfl⟩

theorem execEntry_inv (hI : PropInvHyp prop P)
    (e : Entry) (eng : StateEngine) (st : JsState)
    {eng' : StateEngine} {st' : JsState} {tr : List Event} (hP : P st)
    (hok : execEntry H prop eng st e = .ok (eng', st', tr)) :
    eng' = eng ∧ P st' ∧
      ∀ ev ∈ tr, ev.isInvoke = true ∧ P ev.stateOf := by
  rw [execEntry] at hok
  cases ha : runActions prop eng st (H e.handler (execArgs st e.inputs)) with
  | error er => simp only [ha] at hok; cases hok
  | ok res1 =>
    obtain ⟨eng1, st1, tr1⟩ := res1
    simp only [ha] at hok
    obtain ⟨he1, hP1, ht1⟩ := runActions_inv hI _ eng st hP ha
    cases hok
    subst he1
    subst ht1
    refine ⟨rfl, hP1, ?_⟩
    intro ev hev
    rcases List.mem_cons.1 hev with h | h
    · subst h
      exact ⟨rfl, hP⟩
    · cases h

theorem runEntries_inv (hI : PropInvHyp prop P)
    (es : List Entry) : ∀ (eng : StateEngine) (st : JsState)
    {eng' : StateEngine} {st' : JsState} {tr : List Event}, P st →
    runEntries H prop eng st es = .ok (eng', st', tr) →
    eng' = eng ∧ P st' ∧
      ∀ ev ∈ tr, ev.isInvoke = true ∧ P ev.stateOf := by
  induction es with
  | nil =>
    intro eng st eng' st' tr hP hok
    rw [runEntries] at hok
    cases hok
    exact ⟨rfl, hP, by simp⟩
  | cons e rest ih =>
    intro eng st eng' st' tr hP hok
    rw [runEntries] at hok
    cases ha : execEntry H prop eng st e with
    | error er => simp only [ha] at hok; cases hok
    | ok res1 =>
      obtain ⟨eng1, st1, tr1⟩ := res1
      simp only [ha] at hok
      obtain ⟨he1, hP1, hev1⟩ := execEntry_inv hI e eng st hP ha
      cases hr : runEntries H prop eng1 st1 rest with
      | error er => simp only [hr] at hok; cases hok
      | ok res2 =>
        obtain ⟨eng2, st2, tr2⟩ := res2
        simp only [hr] at hok
        obtain ⟨he2, hP2, hev2⟩ := ih eng1 st1 hP1 hr
        cases hok
        subst he1
        subst he2
        refine ⟨rfl, hP2, ?_⟩
        intro ev hev
        rcases List.mem_append.1 hev with h | h
        · exact hev1 ev h
        · exact hev2 ev h

theorem runPathKeys_inv (hI : PropInvHyp prop P)
    (byPath : List (String × List Entry)) (keys : List String) :
    ∀ (eng : StateEngine) (st : JsState)
    {eng' : StateEngine} {st' : JsState} {tr : List Event}, P st →
    runPathKeys H prop eng st byPath keys = .ok (eng', st', tr) →
    eng' = eng ∧ P st' ∧
      ∀ ev ∈ tr, ev.isInvoke = true ∧ P ev.stateOf := by
  induction keys with
  | nil =>
    intro eng st eng' st' tr hP hok
    rw [runPathKeys] at hok
    cases hok
    exact ⟨rfl, hP, by simp⟩
  | cons k rest ih =>
    intro eng st eng' st' tr hP hok
    rw [runPathKeys] at hok
    cases ha : runEntries H prop eng st ((alookup byPath k).getD []) with
    | error er => simp only [ha] at hok; cases hok
    | ok res1 =>
      obtain ⟨eng1, st1, tr1⟩ := res1
      simp only [ha] at hok
      obtain ⟨he1, hP1, hev1⟩ := runEntries_inv hI _ eng st hP ha
      cases hr : runPathKeys H prop eng1 st1 byPath rest with
      | error er => simp only [hr] at hok; cases hok
      | ok res2 =>
        obtain ⟨eng2, st2, tr2⟩ := res2
        simp only [hr] at hok
        obtain ⟨he2, hP2, hev2⟩ := ih eng1 st1 hP1 hr
        cases hok
        subst he1
        subst he2
        refine ⟨rfl, hP2, ?_⟩
        intro ev hev
        rcases List.mem_append.1 hev with h | h
        · exact hev1 ev h
        · exact hev2 ev h

theorem notifySlot_inv (hI : PropInvHyp prop P)
    (s : Slot) (eng : StateEngine) (st : JsState)
    {eng' : StateEngine} {st' : JsState} {tr : List Event} (hP : P st)
    (hok : notifySlot H prop eng st s = .ok (eng', st', tr)) :
    eng' = eng ∧ P st' ∧
      ∀ ev ∈ tr, ev.isInvoke = true ∧ P ev.stateOf := by
  cases s with
  | value k ins obs =>
    rw [notifySlot] at hok
    exact runEntries_inv hI obs eng st hP hok
  | doc k byPath =>
    rw [notifySlot] at hok
    by_cases hu : (st.getChange "document").isUndef = true
    · simp only [hu, if_true] at hok
      cases hok
    · simp only [hu, Bool.false_eq_true, if_false] at hok
      cases ha : runPathKeys H prop eng st byPath
          ((st.getChange "document").getField "updated").objKeys with
      | error er => simp only [ha] at hok; cases hok
      | ok res1 =>
        obtain ⟨eng1, st1, tr1⟩ := res1
        simp only [ha] at hok
        obtain ⟨he1, hP1, hev1⟩ := runPathKeys_inv hI byPath _ eng st hP ha
        cases hr : runEntries H prop eng1 st1 ((alookup byPath "__default__").getD []) with
        | error er => simp only [hr] at hok; cases hok
        | ok res2 =>
          obtain ⟨eng2, st2, tr2⟩ := res2
          simp only [hr] at hok
          obtain ⟨he2, hP2, hev2⟩ := runEntries_inv hI _ eng1 st1 hP1 hr
          cases hok
          subst he1
          subst he2
          refine ⟨rfl, hP2, ?_⟩
          intro ev hev
          rcases List.mem_append.1 hev with h | h
          · exact hev1 ev h
          · exact hev2 ev h

/-- The schedule walk: the engine is unchanged, the predicate survives to
the end of the pass and holds at every event, and the notified slots form a
subsequence of the schedule. -/
theorem runSchedule_inv (hI : PropInvHyp prop P)
    (sched : List (String × JsRank)) : ∀ (eng : StateEngine) (st : JsState)
    {eng' : StateEngine} {st' : JsState} {tr : List Event}, P st →
    runSchedule H prop eng st sched = .ok (eng', st', tr) →
    eng' = eng ∧ P st' ∧ (∀ ev ∈ tr, P ev.stateOf) ∧
      List.Sublist (notifyKeyRanks tr) sched := by
  induction sched with
  | nil =>
    intro eng st eng' st' tr hP hok
    rw [runSchedule] at hok
    cases hok
    exact ⟨rfl, hP, by simp, by simp [notifyKeyRanks]⟩
  | cons item rest ih =>
    intro eng st eng' st' tr hP hok
    obtain ⟨key, rank⟩ := item
    rw [runSchedule] at hok
    cases hsl : alookup eng.slots key with
    | none => simp only [hsl] at hok; cases hok
    | some slot =>
      simp only [hsl] at hok
      by_cases htr : shouldTrigger st slot.inputs = true
      · simp only [htr, if_true] at hok
        cases ha : notifySlot H prop eng st slot with
        | error er => simp only [ha] at hok; cases hok
        | ok res1 =>
          obtain ⟨eng1, st1, tr1⟩ := res1
          simp only [ha] at hok
          obtain ⟨he1, hP1, hev1⟩ := notifySlot_inv hI slot eng st hP ha
          cases hr : runSchedule H prop eng1 st1 rest with
          | error er => simp only [hr] at hok; cases hok
          | ok res2 =>
            obtain ⟨eng2, st2, tr2⟩ := res2
            simp only [hr] at hok
            obtain ⟨he2, hP2, hev2, hsub2⟩ := ih eng1 st1 hP1 hr
            cases hok
            refine ⟨by rw [he2, he1], hP2, ?_, ?_⟩
            · intro ev hev
              rcases List.mem_cons.1 hev with h | h
              · subst h
                exact hP
              · rcases List.mem_append.1 h with h' | h'
                · exact (hev1 ev h').2
                · exact hev2 ev h'
            · rw [notifyKeyRanks, notifyKeyRanks_append,
                notifyKeyRanks_of_invokes (fun ev hev => (hev1 ev hev).1)]
              simp only [List.nil_append]
              exact (hsub2.cons₂ (key, rank))
      · simp only [htr, Bool.false_eq_true, if_false] at hok
        obtain ⟨he, hP', hev, hsub⟩ := ih eng st hP hok
        exact ⟨he, hP', hev, hsub.cons (key, rank)⟩

/-! ### Pure observers: exact traces

When the handlers perform no store writes, a pass leaves engine and store
untouched and its trace is fully determined. -/

/-- The invocations a list of entries produces on a fixed store state:
one per entry, in order, with the `Entry.exec` argument vector. -/
def pureInvokes (st : JsState) (es : List Entry) : List Event :=
  es.map (fun e => .invoke e.handler e.owner (execArgs st e.inputs) st)

/-- Invocations of the by-path buckets of the given keys, in key order. -/
def pureKeyInvokes (st : JsState) (byPath : List (String × List Entry)) :
    List String → List Event
  | [] => []
  | k :: rest =>
    pureInvokes st ((alookup byPath k).getD []) ++ pureKeyInvokes st byPath rest

theorem execEntry_pure {H : Handlers} {prop : PropFn}
    (hH : ∀ h a, H h a = []) (eng : StateEngine) (st : JsState) (e : Entry) :
    execEntry H prop eng st e =
      .ok (eng, st, [.invoke e.handler e.owner (execArgs st e.inputs) st]) := by
  rw [execEntry, hH]
  rfl

theorem runEntries_pure {H : Handlers} {prop : PropFn}
    (hH : ∀ h a, H h a = []) :
    ∀ (es : List Entry) (eng : StateEngine) (st : JsState),
    runEntries H prop eng st es = .ok (eng, st, pureInvokes st es) := by
  intro es
  induction es with
  | nil => intro eng st; rfl
  | cons e rest ih =>
    intro eng st
    rw [runEntries]
    simp only [execEntry_pure hH, ih]
    rfl

theorem runPathKeys_pure {H : Handlers} {prop : PropFn}
    (hH : ∀ h a, H h a = []) :
    ∀ (keys : List String) (byPath : List (String × List Entry))
      (eng : StateEngine) (st : JsState),
    runPathKeys H prop eng st byPath keys =
      .ok (eng, st, pureKeyInvokes st byPath keys) := by
  intro keys
  induction keys with
  | nil => intro byPath eng st; rfl
  | cons k rest ih =>
    intro byPath eng st
    rw [runPathKeys]
    simp only [runEntries_pure hH, ih]
    rfl

theorem notifySlot_pure_value {H : Handlers} {prop : PropFn}
    (hH : ∀ h a, H h a = []) (eng : StateEngine) (st : JsState)
    (k : String) (ins : List String) (obs : List Entry) :
    notifySlot H prop eng st (.value k ins obs) = .ok (eng, st, pureInvokes st obs) := by
  rw [notifySlot, runEntries_pure hH]

/-- The document slot with pure observers: one invocation round per affected
path key of the diff, then one round for the reserved `__default__`
bucket — regardless of the affected keys. -/
theorem notifySlot_pure_doc {H : Handlers} {prop : PropFn}
    (hH : ∀ h a, H h a = []) (eng : StateEngine) (st : JsState)
    (k : String) (byPath : List (String × List Entry))
    (hnu : (st.getChange "document").isUndef = false) :
    notifySlot H prop eng st (.doc k byPath) =
      .ok (eng, st,
        pureKeyInvokes st byPath
            ((st.getChange "document").getField "updated").objKeys ++
          pureInvokes st ((alookup byPath "__default__").getD [])) := by
  rw [notifySlot]
  simp only [hnu, Bool.false_eq_true, if_false, runPathKeys_pure hH,
    runEntries_pure hH]

theorem pureInvokes_isInvoke (st : JsState) (es : List Entry) :
    ∀ ev ∈ pureInvokes st es, ev.isInvoke = true := by
  intro ev hev
  simp only [pureInvokes, List.mem_map] at hev
  obtain ⟨e, _, he⟩ := hev
  rw [← he]
  rfl

theorem pureKeyInvokes_isInvoke (st : JsState)
    (byPath : List (String × List Entry)) :
    ∀ keys, ∀ ev ∈ pureKeyInvokes st byPath keys, ev.isInvoke = true := by
  intro keys
  induction keys with
  | nil => intro ev hev; cases hev
  | cons k rest ih =>
    intro ev hev
    rw [pureKeyInvokes] at hev
    rcases List.mem_append.1 hev with h | h
    · exact pureInvokes_isInvoke st _ ev h
    · exact ih ev h

/-- With pure observers a successful slot notification leaves engine and
store untouched and emits only handler invocations. -/
theorem notifySlot_pure_ok {H : Handlers} {prop : PropFn}
    (hH : ∀ h a, H h a = []) {slot : Slot} {eng : StateEngine} {st : JsState}
    {eng1 : StateEngine} {st1 : JsState} {tr1 : List Event}
    (ha : notifySlot H prop eng st slot = .ok (eng1, st1, tr1)) :
    eng1 = eng ∧ st1 = st ∧ ∀ ev ∈ tr1, ev.isInvoke = true := by
  cases slot with
  | value k ins obs =>
    rw [notifySlot_pure_value hH] at ha
    cases ha
    exact ⟨rfl, rfl, pureInvokes_isInvoke st obs⟩
  | doc k byPath =>
    cases hnu : (st.getChange "document").isUndef with
    | true =>
      rw [notifySlot] at ha
      simp only [hnu, if_true] at ha
      cases ha
    | false =>
      rw [notifySlot_pure_doc hH eng st k byPath hnu] at ha
      cases ha
      refine ⟨rfl, rfl, ?_⟩
      intro ev hev
      rcases List.mem_append.1 hev with h | h
      · exact pureKeyInvokes_isInvoke st byPath _ ev h
      · exact pureInvokes_isInvoke st _ ev h

/-- Pure pass, slot level: on success engine and store are untouched and
every notified slot passed its `_shouldTrigger` test on the (constant) store
state. -/
theorem runSchedule_pure_notify {H : Handlers} {prop : PropFn}
    (hH : ∀ h a, H h a = []) :
    ∀ (sched : List (String × JsRank)) (eng : StateEngine) (st : JsState)
      {eng' : StateEngine} {st' : JsState} {tr : List Event},
    runSchedule H prop eng st sched = .ok (eng', st', tr) →
    eng' = eng ∧ st' = st ∧
      ∀ k r s, Event.notify k r s ∈ tr →
        s = st ∧ ∃ slot, alookup eng.slots k = some slot ∧
          shouldTrigger st slot.inputs = true := by
  intro sched
  induction sched with
  | nil =>
    intro eng st eng' st' tr hok
    rw [runSchedule] at hok
    cases hok
    exact ⟨rfl, rfl, by simp⟩
  | cons item rest ih =>
    intro eng st eng' st' tr hok
    obtain ⟨key, rank⟩ := item
    rw [runSchedule] at hok
    cases hsl : alookup eng.slots key with
    | none => simp only [hsl] at hok; cases hok
    | some slot =>
      simp only [hsl] at hok
      by_cases htr : shouldTrigger st slot.inputs = true
      · simp only [htr, if_true] at hok
        cases ha : notifySlot H prop eng st slot with
        | error er => simp only [ha] at hok; cases hok
        | ok res1 =>
          obtain ⟨eng1, st1, tr1⟩ := res1
          simp only [ha] at hok
          obtain ⟨he1, hs1, hinv1⟩ := notifySlot_pure_ok hH ha
          cases hr : runSchedule H prop eng1 st1 rest with
          | error er => simp only [hr] at hok; cases hok
          | ok res2 =>
            obtain ⟨eng2, st2, tr2⟩ := res2
            simp only [hr] at hok
            obtain ⟨he2, hs2, hnot2⟩ := ih eng1 st1 hr
            cases hok
            refine ⟨by rw [he2, he1], by rw [hs2, hs1], ?_⟩
            intro k2 r2 s2 hmem
            rcases List.mem_cons.1 hmem with h | h
            · cases h
              exact ⟨rfl, slot, hsl, htr⟩
            · rcases List.mem_append.1 h with h' | h'
              · exact absurd (hinv1 _ h') (by simp [Event.isInvoke])
              · have hfact := hnot2 k2 r2 s2 h'
                rw [he1, hs1] at hfact
                exact hfact
      · simp only [htr, Bool.false_eq_true, if_false] at hok
        exact ih eng st hok

/-! ### The schedule is a stable sort by rank -/

theorem JsRank.ltb_asymm : ∀ {a b : JsRank},
    JsRank.ltb a b = true → JsRank.ltb b a = false := by
  intro a b h
  cases a <;> cases b <;> simp [JsRank.ltb] at h ⊢ <;> omega

theorem JsRank.ltb_of_eq : ∀ {a b : JsRank}, a = b → JsRank.ltb a b = false := by
  intro a b h
  subst h
  cases a <;> simp [JsRank.ltb]

theorem JsRank.ltb_ne : ∀ {a b : JsRank}, JsRank.ltb a b = true → a ≠ b := by
  intro a b h he
  rw [JsRank.ltb_of_eq he] at h
  cases h

theorem JsRank.nlt_trans : ∀ {a b c : JsRank},
    JsRank.ltb b a = false → JsRank.ltb c b = false → JsRank.ltb c a = false := by
  intro a b c h1 h2
  cases a <;> cases b <;> cases c <;>
    simp [JsRank.ltb] at h1 h2 ⊢ <;> omega

theorem insertSched_mem {x z : String × JsRank} :
    ∀ {l : List (String × JsRank)}, z ∈ insertSched x l → z = x ∨ z ∈ l := by
  intro l
  induction l with
  | nil =>
    intro h
    rw [insertSched] at h
    exact Or.inl (List.mem_singleton.1 h)
  | cons y rest ih =>
    intro h
    rw [insertSched] at h
    by_cases hc : JsRank.ltb y.2 x.2 = true
    · simp only [hc, if_true] at h
      rcases List.mem_cons.1 h with h1 | h1
      · exact Or.inr (h1 ▸ List.mem_cons_self _ _)
      · rcases ih h1 with h2 | h2
        · exact Or.inl h2
        · exact Or.inr (List.mem_cons_of_mem _ h2)
    · simp only [hc, if_false] at h
      rcases List.mem_cons.1 h with h1 | h1
      · exact Or.inl h1
      · exact Or.inr h1

/-- Inserting into a sorted list keeps it sorted with respect to
"no later element is strictly smaller". -/
theorem insertSched_pairwise (x : String × JsRank) :
    ∀ l : List (String × JsRank),
    l.Pairwise (fun a b => JsRank.ltb b.2 a.2 = false) →
    (insertSched x l).Pairwise (fun a b => JsRank.ltb b.2 a.2 = false) := by
  intro l
  induction l with
  | nil =>
    intro _
    rw [insertSched]
    exact List.pairwise_singleton _ _
  | cons y rest ih =>
    intro hp
    rw [List.pairwise_cons] at hp
    obtain ⟨hy, hrest⟩ := hp
    rw [insertSched]
    by_cases hc : JsRank.ltb y.2 x.2 = true
    · simp only [hc, if_true]
      rw [List.pairwise_cons]
      constructor
      · intro z hz
        rcases insertSched_mem hz with h1 | h1
        · rw [h1]
          exact JsRank.ltb_asymm hc
        · exact hy z h1
      · exact ih hrest
    · have hcf : JsRank.ltb y.2 x.2 = false := by
        revert hc
        cases JsRank.ltb y.2 x.2 <;> simp
      simp only [hcf, Bool.false_eq_true, if_false]
      rw [List.pairwise_cons]
      constructor
      · intro z hz
        rcases List.mem_cons.1 hz with h1 | h1
        · rw [h1]
          exact hcf
        · exact JsRank.nlt_trans hcf (hy z h1)
      · rw [List.pairwise_cons]
        exact ⟨hy, hrest⟩

theorem sortSched_pairwise :
    ∀ items : List (String × JsRank),
    (sortSched items).Pairwise (fun a b => JsRank.ltb b.2 a.2 = false) := by
  intro items
  induction items with
  | nil => rw [sortSched]; exact List.Pairwise.nil
  | cons x rest ih =>
    rw [sortSched]
    exact insertSched_pairwise x _ ih

theorem filter_rank_cons (r : JsRank) (x : String × JsRank)
    (l : List (String × JsRank)) :
    (x :: l).filter (fun p => p.2 == r) =
      (if x.2 == r then x :: l.filter (fun p => p.2 == r)
       else l.filter (fun p => p.2 == r)) := by
  rw [List.filter_cons]

/-- Stability of the schedule sort: the subsequence at any fixed rank is
exactly the original (registration-order) subsequence at that rank. -/
theorem insertSched_filter (r : JsRank) (x : String × JsRank) :
    ∀ l : List (String × JsRank),
    (insertSched x l).filter (fun p => p.2 == r) =
      (if x.2 == r then x :: l.filter (fun p => p.2 == r)
       else l.filter (fun p => p.2 == r)) := by
  intro l
  induction l with
  | nil =>
    rw [insertSched, filter_rank_cons]
  | cons y rest ih =>
    rw [insertSched]
    by_cases hc : JsRank.ltb y.2 x.2 = true
    · simp only [hc, if_true, filter_rank_cons, ih]
      by_cases hy : (y.2 == r) = true
      · have hx : (x.2 == r) = false := by
          cases hxr : (x.2 == r) with
          | false => rfl
          | true =>
            exfalso
            have hy' : y.2 = r := by simpa using hy
            have hx' : x.2 = r := by simpa using hxr
            rw [JsRank.ltb_of_eq (by rw [hy', hx'])] at hc
            cases hc
        simp [hy, hx]
      · simp [hy]
    · have hcb : JsRank.ltb y.2 x.2 = false := by
        revert hc
        cases JsRank.ltb y.2 x.2 <;> simp
      simp only [hcb, Bool.false_eq_true, if_false, filter_rank_cons]

theorem sortSched_filter (r : JsRank) :
    ∀ items : List (String × JsRank),
    (sortSched items).filter (fun p => p.2 == r) =
      items.filter (fun p => p.2 == r) := by
  intro items
  induction items with
  | nil => rfl
  | cons x rest ih =>
    rw [sortSched, insertSched_filter, ih, filter_rank_cons]

/-- The rank `_computeSchedule` assigns to a slot, as a pure function of the
rank table: `Math.max` over the input ranks (unknown names read `-1`, an
empty input list gives `-Infinity`). -/
def slotRank (rs : RanksTable) (inputs : List String) : JsRank :=
  (inputs.map (fun n => JsRank.fin ((alookup rs n).getD (-1)))).foldl
    JsRank.max .negInf

theorem getMaximumRank_coherent {dg : DependencyGraph} {R : RanksTable}
    (hR : updateRanks dg.deps = .ok R)
    (hcoh : dg.ranks = none ∨ dg.ranks = some R) (names : List String) :
    ∃ dg2, dg.getMaximumRank names = .ok (slotRank R names, dg2) ∧
      dg2.deps = dg.deps ∧ dg2.ranks = some R := by
  rcases hcoh with h | h
  · refine ⟨{ dg with ranks := some R }, ?_, rfl, rfl⟩
    rw [DependencyGraph.getMaximumRank, DependencyGraph.getRanks, h, hR]
    rfl
  · refine ⟨dg, ?_, rfl, h⟩
    rw [DependencyGraph.getMaximumRank, DependencyGraph.getRanks, h]
    rfl

theorem rankSlots_coherent {R : RanksTable} :
    ∀ (slots : List (String × Slot)) (dg : DependencyGraph),
    updateRanks dg.deps = .ok R →
    (dg.ranks = none ∨ dg.ranks = some R) →
    ∃ dg2, rankSlots dg slots =
        .ok (slots.map (fun p => (p.1, slotRank R p.2.inputs)), dg2) ∧
      dg2.deps = dg.deps ∧ (dg2.ranks = none ∨ dg2.ranks = some R) := by
  intro slots
  induction slots with
  | nil =>
    intro dg hR hcoh
    exact ⟨dg, rfl, rfl, hcoh⟩
  | cons p rest ih =>
    intro dg hR hcoh
    obtain ⟨k, s⟩ := p
    obtain ⟨dg2, hmax, hdeps2, hranks2⟩ := getMaximumRank_coherent hR hcoh s.inputs
    obtain ⟨dg3, hrest, hdeps3, hranks3⟩ :=
      ih dg2 (by rw [hdeps2]; exact hR) (Or.inr hranks2)
    rw [rankSlots]
    simp only [hmax, hrest]
    exact ⟨dg3, rfl, by rw [hdeps3, hdeps2], hranks3⟩

/-- `_computeSchedule` under a coherent (or invalidated) rank cache: the
schedule is the stable rank-sort of the slot map in registration order. -/
theorem computeSchedule_coherent {eng : StateEngine} {R : RanksTable}
    (hR : updateRanks eng.deps.deps = .ok R)
    (hcoh : eng.deps.ranks = none ∨ eng.deps.ranks = some R) :
    ∃ eng2, eng.computeSchedule = .ok eng2 ∧
      eng2.slots = eng.slots ∧ eng2.registry = eng.registry ∧
      eng2.schedule =
        some (sortSched (eng.slots.map (fun p => (p.1, slotRank R p.2.inputs)))) := by
  obtain ⟨dg2, hrs, _, _⟩ := rankSlots_coherent eng.slots eng.deps hR hcoh
  refine ⟨{ deps := dg2, slots := eng.slots, schedule := some (sortSched (eng.slots.map (fun p => (p.1, slotRank R p.2.inputs)))), registry := eng.registry }, ?_, rfl, rfl, rfl⟩
  rw [StateEngine.computeSchedule, hrs]

/-! ### The store writes preserve the flag and never clear dirtiness -/

theorem _set_flag (st : JsState) (k : String) (v : Value) :
    (st._set k v).isPropagating = st.isPropagating := by
  rw [JsState._set]
  split <;> rfl

theorem _setChange_flag (st : JsState) (k : String) (c : Value) :
    (st._setChange k c).isPropagating = st.isPropagating := rfl

theorem _setDirty_flag (st : JsState) (k : String) :
    (st._setDirty k).isPropagating = st.isPropagating := rfl

theorem _extend_flag {st : JsState} {k : String} {hs : List (String × Value)}
    {st' : JsState} (h : JsState._extend st k hs = .ok st') :
    st'.isPropagating = st.isPropagating := by
  rw [JsState._extend] at h
  by_cases hd : st.isDirty k = true
  · simp only [hd, if_true] at h
    cases ho : objAssign (st.get k) hs with
    | error e => simp only [ho] at h; cases h
    | ok v =>
      simp only [ho] at h
      cases h
      rfl
  · simp only [hd, Bool.false_eq_true, if_false] at h
    cases ho : objAssign (.obj []) hs with
    | error e => simp only [ho] at h; cases h
    | ok v =>
      simp only [ho] at h
      cases h
      rfl

theorem addDirty_mem {dirty : List String} {k0 : String} (k : String)
    (h : k0 ∈ dirty) : k0 ∈ addDirty dirty k := by
  rw [addDirty]
  split
  · exact h
  · exact List.mem_append_left _ h

theorem addDirty_self (dirty : List String) (k : String) :
    k ∈ addDirty dirty k := by
  rw [addDirty]
  split
  · assumption
  · exact List.mem_append_right _ (List.mem_singleton.2 rfl)

theorem isDirty_iff_mem (st : JsState) (k : String) :
    st.isDirty k = true ↔ k ∈ st.dirty := by
  simp [JsState.isDirty]

theorem _set_dirty_mono {st : JsState} {k0 : String}
    (h : st.isDirty k0 = true) (k : String) (v : Value) :
    (JsState._set st k v).isDirty k0 = true := by
  rw [isDirty_iff_mem] at h ⊢
  rw [JsState._set]
  split
  · exact h
  · exact addDirty_mem k h

theorem _set_dirty_self (st : JsState) (k : String) (v : Value) :
    (JsState._set st k v).isDirty k = true := by
  rw [isDirty_iff_mem]
  rw [JsState._set]
  split
  · rename_i hd
    exact (isDirty_iff_mem st k).1 hd
  · exact addDirty_self st.dirty k

theorem _setChange_dirty_mono {st : JsState} {k0 : String}
    (h : st.isDirty k0 = true) (k : String) (c : Value) :
    (JsState._setChange st k c).isDirty k0 = true := by
  rw [isDirty_iff_mem] at h ⊢
  exact addDirty_mem k h

theorem _setChange_dirty_self (st : JsState) (k : String) (c : Value) :
    (JsState._setChange st k c).isDirty k = true := by
  rw [isDirty_iff_mem]
  exact addDirty_self st.dirty k

theorem _setDirty_dirty_mono {st : JsState} {k0 : String}
    (h : st.isDirty k0 = true) (k : String) :
    (JsState._setDirty st k).isDirty k0 = true := by
  rw [isDirty_iff_mem] at h ⊢
  exact addDirty_mem k h

theorem _extend_dirty_mono {st : JsState} {k0 : String} {k : String}
    {hs : List (String × Value)} {st' : JsState}
    (h : st.isDirty k0 = true) (hok : JsState._extend st k hs = .ok st') :
    st'.isDirty k0 = true := by
  rw [JsState._extend] at hok
  by_cases hd : st.isDirty k = true
  · simp only [hd, if_true] at hok
    cases ho : objAssign (st.get k) hs with
    | error e => simp only [ho] at hok; cases hok
    | ok v =>
      simp only [ho] at hok
      cases hok
      exact h
  · simp only [hd, Bool.false_eq_true, if_false] at hok
    cases ho : objAssign (.obj []) hs with
    | error e => simp only [ho] at hok; cases hok
    | ok v =>
      simp only [ho] at hok
      cases hok
      rw [isDirty_iff_mem] at h ⊢
      exact addDirty_mem k h

/-- The flag invariant: during a pass, the public write API never starts a
nested pass. -/
theorem propInvHyp_flag (H : Handlers) (f : Nat) :
    PropInvHyp (propagatePublicRec H f) (fun st => st.isPropagating = true) :=
  { flag := fun _ h => h
    prop_id := fun eng st h => propagate_guard H f eng st h
    wset := fun st k v h => by rw [_set_flag]; exact h
    wextend := fun st k hs st' h hok => by rw [_extend_flag hok]; exact h
    wsetChange := fun st k c h => by rw [_setChange_flag]; exact h
    wsetDirty := fun st k h => by rw [_setDirty_flag]; exact h }

/-- The dirtiness invariant: once a resource is dirty, it stays dirty for
the remainder of the pass. -/
theorem propInvHyp_flag_dirty (H : Handlers) (f : Nat) (k0 : String) :
    PropInvHyp (propagatePublicRec H f)
      (fun st => st.isPropagating = true ∧ st.isDirty k0 = true) :=
  { flag := fun _ h => h.1
    prop_id := fun eng st h => propagate_guard H f eng st h
    wset := fun st k v h => ⟨by rw [_set_flag]; exact h.1, _set_dirty_mono h.2 k v⟩
    wextend := fun st k hs st' h hok =>
      ⟨by rw [_extend_flag hok]; exact h.1, _extend_dirty_mono h.2 hok⟩
    wsetChange := fun st k c h =>
      ⟨by rw [_setChange_flag]; exact h.1, _setChange_dirty_mono h.2 k c⟩
    wsetDirty := fun st k h =>
      ⟨by rw [_setDirty_flag]; exact h.1, _setDirty_dirty_mono h.2 k⟩ }

/-! ### Concrete scenarios

`addReducerD` threads an engine through registrations; all registrations in
the scenarios below succeed (their results are checked definitionally). -/

def addReducerD (eng : StateEngine) (outputs : List String)
    (inputs : List InputSpec) (handler owner : Nat) : StateEngine :=
  match eng.addReducer outputs inputs handler owner with
  | .ok (e, _) => e
  | .error _ => eng

/-- Handlers that perform no store writes (pure observers). -/
def Hpure : Handlers := fun _ _ => []

/-- Number of invocations of handler `h` recorded in a trace. -/
def countInvokes (tr : List Event) (h : Nat) : Nat :=
  tr.countP (fun ev =>
    match ev with
    | .invoke h' _ _ _ => h' == h
    | .notify _ _ _ => false)

/-- The engine of the spec's example scenario: R1 (handler 1, owner 101)
with inputs `[]` and outputs `["a"]`; R2 (handler 2, owner 102) with inputs
`["a"]` and outputs `["b"]`. -/
def engC2 : StateEngine :=
  addReducerD (addReducerD StateEngine.new ["a"] [] 1 101)
    ["b"] [.plain "a"] 2 102

/-- Initial store with `a = 5`. -/
def stC2 : JsState := JsState.init [("a", .num 5)]

/-- `state.set("a", 1)` on that engine with pure observers. -/
def runC2 : PropResult := JsState.setPublic Hpure 5 engC2 stC2 "a" (.num 1)

def trC2 : List Event :=
  match runC2 with
  | .ok (_, _, tr) => tr
  | .error _ => []

/-- The store state every handler of the `set("a", 1)` pass observes. -/
def stMidC2 : JsState :=
  { data := [("a", .num 1)], changes := [], oldValues := [("a", .num 5)],
    dirty := ["a"], isPropagating := true }

theorem getRegistration_slots (eng : StateEngine) (owner : Nat) :
    (eng.getRegistration owner).2.slots = eng.slots := by
  rw [StateEngine.getRegistration]
  cases alookup eng.registry owner <;> rfl

/-- C1: `disconnect(owner)` for any owner with at least one registered
entry dereferences `this._slots[entry.slot]` where the `Entry` class never
assigned `slot`; the lookup misses (no slot is keyed `"undefined"`; real
keys are parenthesized input lists) and `removeObserver` is called on
`undefined`, a TypeError.  The claim says entries are removed and the call
returns without error — the code cannot do that. -/
theorem claim_C1_disconnect_crashes (eng : StateEngine) (owner : Nat)
    (hne : (eng.getRegistration owner).1 ≠ [])
    (hkey : alookup eng.slots "undefined" = none) :
    eng.disconnect owner = .error .typeError := by
  have hslots := getRegistration_slots eng owner
  rw [StateEngine.disconnect]
  cases hge : eng.getRegistration owner with
  | mk entries eng0 =>
    rw [hge] at hne hslots
    cases entries with
    | nil => exact absurd rfl hne
    | cons e rest =>
      have : alookup eng0.slots "undefined" = none := by
        rw [hslots]
        exact hkey
      simp only [disconnectLoop, this]

/-- The engine of the C1 failing input: one reducer registered by owner 7. -/
def engC1 : StateEngine := addReducerD StateEngine.new ["b"] [.plain "a"] 1 7

theorem claim_C1_witness :
    (engC1.getRegistration 7).1 ≠ [] ∧
      alookup engC1.slots "undefined" = none ∧
      engC1.disconnect 7 = .error .typeError :=
  ⟨by decide, by decide,
    claim_C1_disconnect_crashes engC1 7 (by decide) (by decide)⟩

/-- C2 counterexample: the claim asserts `set("a", 1)` does **not**
re-invoke R1's handler; in fact R1's slot has zero non-pseudo inputs, which
`_shouldTrigger` treats as "run unconditionally", so handler 1 is invoked
(exactly once) during the pass. -/
theorem claim_C2_counterexample :
    countInvokes trC2 1 = 1 ∧ countInvokes trC2 1 ≠ 0 :=
  ⟨rfl, by decide⟩

/-- C2 (amended): `set("a", 1)` invokes R2's handler exactly once, at a
point where `get("a") = 1` and `getOldValue("a") = 5` (the prior value);
however R1's handler is also re-invoked once, because a slot with zero
non-pseudo inputs triggers on every pass. -/
theorem claim_C2_amended_scenario :
    trC2 = [Event.notify "()" JsRank.negInf stMidC2,
            Event.invoke 1 101 [] stMidC2,
            Event.notify "(a)" (JsRank.fin 0) stMidC2,
            Event.invoke 2 102 [Value.num 1] stMidC2] ∧
    countInvokes trC2 2 = 1 ∧ countInvokes trC2 1 = 1 ∧
    stMidC2.get "a" = Value.num 1 ∧
    stMidC2.getOldValue "a" = Value.num 5 :=
  ⟨rfl, rfl, rfl, rfl, rfl⟩

/-- Modelled from the spec (§4.3, ValueSlot): "on notify, builds a
per-input change map (previous value or equivalent) and invokes every
observer's handler with that map" — a single argument mapping each watched
input name to its previous value. -/
def specPerInputChangeMap (st : JsState) (inputs : List String) : List Value :=
  [Value.obj (inputs.map (fun n => (n, st.getOldValue n)))]

/-- C3 counterexample: in the `set("a", 1)` scenario the value slot invokes
R2's handler with the positional argument list `[1]` — the *current* value
of `"a"` — not with a per-input change map of previous values
(`[{ a: 5 }]`). -/
theorem claim_C3_counterexample :
    Event.invoke 2 102 [Value.num 1] stMidC2 ∈ trC2 ∧
      [Value.num 1] ≠ specPerInputChangeMap stMidC2 ["a"] := by
  constructor
  · have h : trC2 = [Event.notify "()" JsRank.negInf stMidC2,
        Event.invoke 1 101 [] stMidC2,
        Event.notify "(a)" (JsRank.fin 0) stMidC2,
        Event.invoke 2 102 [Value.num 1] stMidC2] := rfl
    rw [h]
    simp
  · intro h
    have h1 : Value.num 1 = Value.obj [("a", Value.num 5)] := by
      have := List.head_eq_of_cons_eq h
      exact this
    exact Value.noConfusion h1

/-- C3 (amended): when a value slot is notified, every observer entry is
invoked, in registration order, with one positional argument per watched
input in the entry's declared order — the current value (`state.get`) for a
plain resource and the registered change object (`state.getChange`) for the
referential `'document'` resource. -/
theorem claim_C3_value_slot_invocation {H : Handlers} {prop : PropFn}
    (hH : ∀ h a, H h a = []) (eng : StateEngine) (st : JsState)
    (key : String) (ins : List String) (obs : List Entry) :
    notifySlot H prop eng st (.value key ins obs) =
      .ok (eng, st, obs.map (fun e =>
        Event.invoke e.handler e.owner
          (e.inputs.map (fun n =>
            if n = "document" then st.getChange n else st.get n)) st)) :=
  notifySlot_pure_value hH eng st key ins obs

def entryC3 : Entry :=
  { inputs := ["a"], outputs := ["b"], opts := [], owner := 102,
    handler := 2, path := none }

theorem claim_C3_witness :
    notifySlot Hpure (propagatePublicRec Hpure 3) StateEngine.new stMidC2
        (.value "(a)" ["a"] [entryC3]) =
      .ok (StateEngine.new, stMidC2,
        [Event.invoke 2 102 [Value.num 1] stMidC2]) :=
  claim_C3_value_slot_invocation (fun _ _ => rfl) StateEngine.new stMidC2
    "(a)" ["a"] [entryC3]

/-- C4: within one pass (schedule freshly computed from the dependency
graph), the rank table satisfies the claim's recurrence (0 for a name with
no dependencies, `1 + max` of the dependency ranks otherwise); slots are
notified in non-decreasing order of their rank (`Math.max` over their input
ranks), and among slots of equal rank the notification order is the
registration order (the fixed-rank subsequence of the notifications is a
subsequence of the registration-ordered slot list). -/
theorem claim_C4_schedule_order (H : Handlers) (f : Nat) (eng : StateEngine)
    (st : JsState) (R : RanksTable) {eng' : StateEngine} {st' : JsState}
    {tr : List Event}
    (hndG : (eng.deps.deps.map Prod.fst).Nodup)
    (hR : updateRanks eng.deps.deps = .ok R)
    (hcoh : eng.deps.ranks = none ∨ eng.deps.ranks = some R)
    (hsched : eng.schedule = none)
    (hflag : st.isPropagating = true)
    (hok : enginePropagate H (propagatePublicRec H f) eng st =
      .ok (eng', st', tr)) :
    (∀ p ∈ eng.deps.deps, ∃ r, alookup R p.1 = some r ∧ 0 ≤ r ∧
      r = (if p.2 = [] then 0 else maxDepRank R p.2 + 1)) ∧
    (notifyKeyRanks tr).Pairwise (fun a b => JsRank.ltb b.2 a.2 = false) ∧
    (∀ r, List.Sublist
      ((notifyKeyRanks tr).filter (fun p => p.2 == r))
      ((eng.slots.map (fun p => (p.1, slotRank R p.2.inputs))).filter
        (fun p => p.2 == r))) := by
  have hrec := updateRanks_recurrence hndG hR
  rw [enginePropagate, hsched] at hok
  obtain ⟨eng2, hcs, hslots2, hreg2, hsched2⟩ := computeSchedule_coherent hR hcoh
  rw [hcs] at hok
  simp only [hsched2, Option.getD_some] at hok
  obtain ⟨_, _, _, hsub⟩ :=
    runSchedule_inv (propInvHyp_flag H f) _ eng2 st hflag hok
  rw [← hslots2]
  refine ⟨?_, ?_, ?_⟩
  · intro p hp
    obtain ⟨r, h1, h2, _, h4⟩ := hrec p hp
    exact ⟨r, h1, h2, h4⟩
  · exact (sortSched_pairwise _).sublist hsub
  · intro r
    have h1 := hsub.filter (fun p => p.2 == r)
    rw [sortSched_filter] at h1
    rw [hslots2]
    exact h1

def runC4 : PropResult :=
  enginePropagate Hpure (propagatePublicRec Hpure 3) engC2 stMidC2

def engC4 : StateEngine :=
  match runC4 with
  | .ok (e, _, _) => e
  | .error _ => StateEngine.new

def stC4 : JsState :=
  match runC4 with
  | .ok (_, s, _) => s
  | .error _ => stMidC2

def trC4 : List Event :=
  match runC4 with
  | .ok (_, _, t) => t
  | .error _ => []

theorem claim_C4_witness :
    (∀ p ∈ engC2.deps.deps, ∃ r,
      alookup [("a", (0 : Int)), ("b", 1)] p.1 = some r ∧ 0 ≤ r ∧
      r = (if p.2 = [] then 0
           else maxDepRank [("a", (0 : Int)), ("b", 1)] p.2 + 1)) ∧
    (notifyKeyRanks trC4).Pairwise (fun a b => JsRank.ltb b.2 a.2 = false) ∧
    (∀ r, List.Sublist
      ((notifyKeyRanks trC4).filter (fun p => p.2 == r))
      ((engC2.slots.map (fun p => (p.1, slotRank [("a", (0 : Int)), ("b", 1)]
          p.2.inputs))).filter (fun p => p.2 == r))) :=
  claim_C4_schedule_order Hpure 3 engC2 stMidC2 [("a", 0), ("b", 1)]
    (by decide) (by rfl) (Or.inr (by decide)) (by decide) rfl rfl

/-- C5: registering a dependency edge that makes the dependency table
cyclic raises the cyclic-dependency error at registration time
(`addDependency` eagerly runs `_update`, whose memoized DFS hits its `-1`
in-progress marker), for every table containing a cycle; the error is
thrown, never swallowed. -/
theorem claim_C5_cycle_detection (dg : DependencyGraph) (name : String)
    (deps : List String)
    (hnd : (dg.deps.map Prod.fst).Nodup)
    (hcyc : HasDepCycle (addDependencyTable dg.deps name deps)) :
    dg.addDependency name deps = .error .cyclic :=
  addDependency_cyclic hnd hcyc

/-- The graph after `addDependency("A", ["B"])` on an empty graph. -/
def dgAB : DependencyGraph :=
  match DependencyGraph.empty.addDependency "A" ["B"] with
  | .ok dg => dg
  | .error _ => DependencyGraph.empty

theorem claim_C5_witness :
    (dgAB.deps.map Prod.fst).Nodup ∧
      HasDepCycle (addDependencyTable dgAB.deps "B" ["A"]) ∧
      dgAB.addDependency "B" ["A"] = .error .cyclic := by
  have hnd : (dgAB.deps.map Prod.fst).Nodup := by decide
  have hAB : depEdge (addDependencyTable dgAB.deps "B" ["A"]) "A" "B" := by
    unfold depEdge
    decide
  have hBA : depEdge (addDependencyTable dgAB.deps "B" ["A"]) "B" "A" := by
    unfold depEdge
    decide
  have hcyc : HasDepCycle (addDependencyTable dgAB.deps "B" ["A"]) :=
    ⟨"A", Relation.TransGen.tail (Relation.TransGen.single hAB) hBA⟩
  exact ⟨hnd, hcyc, claim_C5_cycle_detection dgAB "B" ["A"] hnd hcyc⟩

theorem shouldTriggerLoop_spec (st : JsState) :
    ∀ (inputs : List String) (count : Nat),
    shouldTriggerLoop st inputs count = true ↔
      ((∃ n ∈ inputs, isPseudo n = false ∧ st.isDirty n = true) ∨
        (count = 0 ∧ ∀ n ∈ inputs, isPseudo n = true)) := by
  intro inputs
  induction inputs with
  | nil =>
    intro count
    rw [shouldTriggerLoop]
    simp
  | cons n rest ih =>
    intro count
    rw [shouldTriggerLoop]
    by_cases hp : isPseudo n = true
    · simp only [hp, if_true]
      rw [ih count]
      constructor
      · rintro (⟨m, hm, h1, h2⟩ | ⟨hc, hall⟩)
        · exact Or.inl ⟨m, List.mem_cons_of_mem _ hm, h1, h2⟩
        · refine Or.inr ⟨hc, ?_⟩
          intro m hm
          rcases List.mem_cons.1 hm with h | h
          · rw [h]; exact hp
          · exact hall m h
      · rintro (⟨m, hm, h1, h2⟩ | ⟨hc, hall⟩)
        · rcases List.mem_cons.1 hm with h | h
          · rw [h, hp] at h1; cases h1
          · exact Or.inl ⟨m, h, h1, h2⟩
        · exact Or.inr ⟨hc, fun m hm => hall m (List.mem_cons_of_mem _ hm)⟩
    · have hpf : isPseudo n = false := by
        revert hp
        cases isPseudo n <;> simp
      simp only [hpf, Bool.false_eq_true, if_false]
      by_cases hd : st.isDirty n = true
      · simp only [hd, if_true]
        constructor
        · intro _
          exact Or.inl ⟨n, List.mem_cons_self _ _, hpf, hd⟩
        · intro _
          trivial
      · have hdf : st.isDirty n = false := by
          revert hd
          cases st.isDirty n <;> simp
        simp only [hdf, Bool.false_eq_true, if_false]
        rw [ih (count + 1)]
        constructor
        · rintro (⟨m, hm, h1, h2⟩ | ⟨hc, _⟩)
          · exact Or.inl ⟨m, List.mem_cons_of_mem _ hm, h1, h2⟩
          · cases hc
        · rintro (⟨m, hm, h1, h2⟩ | ⟨_, hall⟩)
          · rcases List.mem_cons.1 hm with h | h
            · rw [h, hdf] at h2; cases h2
            · exact Or.inl ⟨m, h, h1, h2⟩
          · rw [hall n (List.mem_cons_self _ _)] at hpf
            cases hpf

theorem isDirty_singleton {st : JsState} {X n : String}
    (h : st.dirty = [X]) : st.isDirty n = true ↔ n = X := by
  rw [isDirty_iff_mem, h, List.mem_singleton]

/-- C6: a slot triggers exactly when one of its non-pseudo (`@`-free)
inputs is dirty or it has no non-pseudo inputs at all; consequently, in a
pass in which only resource `X` is dirty (and observers perform no writes),
every notified slot either watches `X` as a non-pseudo input or has only
pseudo inputs — no slot whose non-empty non-pseudo input set excludes `X`
is notified. -/
theorem claim_C6_trigger_and_isolation :
    (∀ (st : JsState) (inputs : List String),
      shouldTrigger st inputs = true ↔
        ((∃ n ∈ inputs, isPseudo n = false ∧ st.isDirty n = true) ∨
          (∀ n ∈ inputs, isPseudo n = true))) ∧
    (∀ (H : Handlers) (prop : PropFn) (sched : List (String × JsRank))
      (eng : StateEngine) (st : JsState) (X : String)
      (eng' : StateEngine) (st' : JsState) (tr : List Event),
      (∀ h a, H h a = []) →
      st.dirty = [X] →
      runSchedule H prop eng st sched = .ok (eng', st', tr) →
      ∀ k r s, Event.notify k r s ∈ tr →
        ∃ slot, alookup eng.slots k = some slot ∧
          ((X ∈ slot.inputs ∧ isPseudo X = false) ∨
            (∀ n ∈ slot.inputs, isPseudo n = true))) := by
  have hiff : ∀ (st : JsState) (inputs : List String),
      shouldTrigger st inputs = true ↔
        ((∃ n ∈ inputs, isPseudo n = false ∧ st.isDirty n = true) ∨
          (∀ n ∈ inputs, isPseudo n = true)) := by
    intro st inputs
    rw [shouldTrigger, shouldTriggerLoop_spec]
    constructor
    · rintro (h | ⟨_, h⟩)
      · exact Or.inl h
      · exact Or.inr h
    · rintro (h | h)
      · exact Or.inl h
      · exact Or.inr ⟨rfl, h⟩
  refine ⟨hiff, ?_⟩
  intro H prop sched eng st X eng' st' tr hH hdirty hok k r s hmem
  obtain ⟨_, _, hnot⟩ := runSchedule_pure_notify hH sched eng st hok
  obtain ⟨_, slot, hsl, htrig⟩ := hnot k r s hmem
  refine ⟨slot, hsl, ?_⟩
  rcases (hiff st slot.inputs).1 htrig with ⟨n, hn, hnp, hnd⟩ | h
  · have hx : n = X := (isDirty_singleton hdirty).1 hnd
    rw [hx] at hn hnp
    exact Or.inl ⟨hn, hnp⟩
  · exact Or.inr h

def engC6 : StateEngine :=
  match engC2.computeSchedule with
  | .ok e => e
  | .error _ => StateEngine.new

def schedC6 : List (String × JsRank) := engC6.schedule.getD []

def runC6 : PropResult :=
  runSchedule Hpure (propagatePublicRec Hpure 3) engC6 stMidC2 schedC6

def engC6' : StateEngine :=
  match runC6 with
  | .ok (e, _, _) => e
  | .error _ => StateEngine.new

def stC6 : JsState :=
  match runC6 with
  | .ok (_, s, _) => s
  | .error _ => stMidC2

def trC6 : List Event :=
  match runC6 with
  | .ok (_, _, t) => t
  | .error _ => []

theorem claim_C6_witness :
    (shouldTrigger stMidC2 ["a"] = true ↔
      ((∃ n ∈ ["a"], isPseudo n = false ∧ stMidC2.isDirty n = true) ∨
        (∀ n ∈ ["a"], isPseudo n = true))) ∧
    (∀ k r s, Event.notify k r s ∈ trC6 →
      ∃ slot, alookup engC6.slots k = some slot ∧
        (("a" ∈ slot.inputs ∧ isPseudo "a" = false) ∨
          (∀ n ∈ slot.inputs, isPseudo n = true))) := by
  constructor
  · exact claim_C6_trigger_and_isolation.1 stMidC2 ["a"]
  · intro k r s hmem
    exact claim_C6_trigger_and_isolation.2 Hpure (propagatePublicRec Hpure 3)
      schedC6 engC6 stMidC2 "a" engC6' stC6 trC6
      (fun _ _ => rfl) rfl (by rfl) k r s hmem

/-- Number of entries of the path bucket `p` carrying handler `hd`. -/
def bucketCount (byPath : List (String × List Entry)) (p : String)
    (hd : Nat) : Nat :=
  ((alookup byPath p).getD []).countP (fun e => e.handler == hd)

theorem countInvokes_append (a b : List Event) (hd : Nat) :
    countInvokes (a ++ b) hd = countInvokes a hd + countInvokes b hd := by
  rw [countInvokes, countInvokes, countInvokes, List.countP_append]

theorem countInvokes_pureInvokes (st : JsState) (es : List Entry) (hd : Nat) :
    countInvokes (pureInvokes st es) hd =
      es.countP (fun e => e.handler == hd) := by
  rw [countInvokes, pureInvokes, List.countP_map]
  rfl

theorem countInvokes_bucket (st : JsState)
    (byPath : List (String × List Entry)) (p : String) (hd : Nat) :
    countInvokes (pureInvokes st ((alookup byPath p).getD [])) hd =
      bucketCount byPath p hd := by
  rw [countInvokes_pureInvokes]
  rfl

theorem countInvokes_pureKeyInvokes (st : JsState)
    (byPath : List (String × List Entry)) (hd : Nat) :
    ∀ keys : List String,
    countInvokes (pureKeyInvokes st byPath keys) hd =
      (keys.map (fun k => bucketCount byPath k hd)).sum := by
  intro keys
  induction keys with
  | nil => rfl
  | cons k rest ih =>
    rw [pureKeyInvokes, countInvokes_append, countInvokes_pureInvokes, ih,
      List.map_cons, List.sum_cons]
    rfl

theorem sum_map_eq_zero {α : Type} (f : α → Nat) :
    ∀ l : List α, (∀ k ∈ l, f k = 0) → (l.map f).sum = 0 := by
  intro l
  induction l with
  | nil => intro _; rfl
  | cons a rest ih =>
    intro hall
    rw [List.map_cons, List.sum_cons, hall a (List.mem_cons_self _ _),
      ih (fun k hk => hall k (List.mem_cons_of_mem _ hk))]

theorem sum_map_single {α : Type} [DecidableEq α] (f : α → Nat) (p : α) :
    ∀ l : List α, l.Nodup → p ∈ l → (∀ k ∈ l, k ≠ p → f k = 0) →
    (l.map f).sum = f p := by
  intro l
  induction l with
  | nil => intro _ hmem; cases hmem
  | cons a rest ih =>
    intro hnd hmem hall
    rw [List.map_cons, List.sum_cons]
    rcases List.mem_cons.1 hmem with hpa | hpr
    · have hz : (rest.map f).sum = 0 := by
        apply sum_map_eq_zero
        intro k hk
        apply hall k (List.mem_cons_of_mem _ hk)
        intro hkp
        rw [hkp, hpa] at hk
        exact (List.nodup_cons.1 hnd).1 hk
      rw [hz, hpa, Nat.add_zero]
    · have hap : a ≠ p := fun he => (List.nodup_cons.1 hnd).1 (he ▸ hpr)
      rw [hall a (List.mem_cons_self _ _) hap,
        ih (List.nodup_cons.1 hnd).2 hpr
          (fun k hk => hall k (List.mem_cons_of_mem _ hk)),
        Nat.zero_add]

/-- C7 (amended): with pure observers and a document diff whose affected
path-key set `P` does not contain the reserved `__default__` key, notifying
the document slot invokes a handler housed in exactly one path bucket `p0`
exactly once when `p0` is an affected key or the default bucket, and not at
all otherwise.  The original claim fails when `P` contains the reserved key
or an observer registers under it explicitly: the default bucket is then
visited both by the per-key loop and by the trailing default notification
(see the counterexample). -/
theorem claim_C7_path_dispatch {H : Handlers} {prop : PropFn}
    (hH : ∀ hd a, H hd a = []) (eng : StateEngine) (st : JsState)
    (k p0 : String) (byPath : List (String × List Entry)) (hd : Nat)
    (P : List String)
    (hP : P = ((st.getChange "document").getField "updated").objKeys)
    (hnu : (st.getChange "document").isUndef = false)
    (hnd : P.Nodup)
    (hdef : "__default__" ∉ P)
    (hone : bucketCount byPath p0 hd = 1)
    (hothers : ∀ p, p ≠ p0 → bucketCount byPath p hd = 0) :
    ∃ tr, notifySlot H prop eng st (.doc k byPath) = .ok (eng, st, tr) ∧
      countInvokes tr hd =
        (if p0 = "__default__" ∨ p0 ∈ P then 1 else 0) := by
  refine ⟨_, notifySlot_pure_doc hH eng st k byPath hnu, ?_⟩
  rw [countInvokes_append, countInvokes_pureKeyInvokes, countInvokes_bucket,
    ← hP]
  by_cases hd0 : p0 = "__default__"
  · rw [if_pos (Or.inl hd0)]
    have hz : (P.map (fun k2 => bucketCount byPath k2 hd)).sum = 0 := by
      apply sum_map_eq_zero
      intro k2 hk2
      apply hothers
      intro he
      rw [he, hd0] at hk2
      exact hdef hk2
    rw [hz, ← hd0, hone]
  · by_cases hmem : p0 ∈ P
    · rw [if_pos (Or.inr hmem)]
      have hs : (P.map (fun k2 => bucketCount byPath k2 hd)).sum =
          bucketCount byPath p0 hd :=
        sum_map_single _ p0 P hnd hmem (fun k2 _ hk2 => hothers k2 hk2)
      have hdz : bucketCount byPath "__default__" hd = 0 :=
        hothers _ (fun he => hd0 he.symm)
      rw [hs, hone, hdz]
    · rw [if_neg (fun hor => hor.elim hd0 hmem)]
      have hz : (P.map (fun k2 => bucketCount byPath k2 hd)).sum = 0 :=
        sum_map_eq_zero _ P (fun k2 hk2 =>
          hothers k2 (fun he => hmem (he ▸ hk2)))
      rw [hz, hothers _ (fun he => hd0 he.symm)]

/-- A default-bucket observer (no specific path): entry as the document slot
stores it after `addObserver`. -/
def eC7 : Entry :=
  { inputs := ["document"], outputs := ["x"], opts := [], owner := 107,
    handler := 7, path := some "__default__" }

def slotC7 : Slot := .doc "(document)" [("__default__", [eC7])]

/-- A store whose document diff's affected path-key set is exactly the
reserved `__default__` key. -/
def stC7 : JsState :=
  { data := [], changes :=
      [("document", .obj [("updated", .obj [("__default__", .num 1)])])],
    oldValues := [], dirty := ["document"], isPropagating := true }

def trC7 : List Event :=
  match notifySlot Hpure (propagatePublicRec Hpure 0) StateEngine.new
      stC7 slotC7 with
  | .ok (_, _, t) => t
  | .error _ => []

/-- C7 counterexample: when the diff's affected path keys contain the
reserved `__default__` key, the default-bucket observer is invoked twice in
one notification, not exactly once. -/
theorem claim_C7_counterexample :
    countInvokes trC7 7 = 2 ∧ ¬ countInvokes trC7 7 = 1 := by
  exact ⟨rfl, by decide⟩

def eC7a : Entry :=
  { inputs := ["document"], outputs := ["x"],
    opts := [("document", some "a.b")], owner := 108, handler := 8,
    path := some "a.b" }

def eC7d : Entry :=
  { inputs := ["document"], outputs := ["y"], opts := [], owner := 109,
    handler := 9, path := some "__default__" }

def byPathC7 : List (String × List Entry) :=
  [("a.b", [eC7a]), ("__default__", [eC7d])]

def stC7w : JsState :=
  { data := [], changes :=
      [("document", .obj [("updated", .obj [("a.b", .num 1)])])],
    oldValues := [], dirty := ["document"], isPropagating := true }

theorem claim_C7_witness :
    ∃ tr, notifySlot Hpure (propagatePublicRec Hpure 0) StateEngine.new stC7w
        (.doc "(document)" byPathC7) = .ok (StateEngine.new, stC7w, tr) ∧
      countInvokes tr 8 = 1 := by
  have hothers : ∀ p, p ≠ "a.b" → bucketCount byPathC7 p 8 = 0 := by
    intro p hp
    simp only [bucketCount, byPathC7, alookup]
    rw [if_neg (fun he => hp he.symm)]
    by_cases h2 : "__default__" = p
    · rw [if_pos h2]
      rfl
    · rw [if_neg h2]
      rfl
  obtain ⟨tr, h1, h2⟩ := claim_C7_path_dispatch (fun _ _ => rfl)
    StateEngine.new stC7w "(document)" "a.b" byPathC7 8 ["a.b"] (by rfl)
    (by rfl) (by decide) (by decide) (by rfl) hothers
  refine ⟨tr, h1, ?_⟩
  rw [h2]
  decide

theorem _extend_dirty_self {st : JsState} {k : String}
    {hs : List (String × Value)} {st' : JsState}
    (hok : JsState._extend st k hs = .ok st') : st'.isDirty k = true := by
  rw [JsState._extend] at hok
  by_cases hd : st.isDirty k = true
  · simp only [hd, if_true] at hok
    cases ho : objAssign (st.get k) hs with
    | error e => simp only [ho] at hok; cases hok
    | ok v =>
      simp only [ho] at hok
      cases hok
      exact hd
  · simp only [hd, Bool.false_eq_true, if_false] at hok
    cases ho : objAssign (.obj []) hs with
    | error e => simp only [ho] at hok; cases hok
    | ok v =>
      simp only [ho] at hok
      cases hok
      rw [isDirty_iff_mem]
      exact addDirty_self st.dirty k

theorem isDirty_false_of_nil {st : JsState} (h : st.dirty = [])
    (n : String) : st.isDirty n = false := by
  cases hb : st.isDirty n with
  | false => rfl
  | true =>
    have hmem := (isDirty_iff_mem st n).1 hb
    rw [h] at hmem
    cases hmem

/-- `StateEngine.propagate` preserves any `PropInvHyp` state predicate and
satisfies it at every emitted event. -/
theorem enginePropagate_inv (hI : PropInvHyp prop P)
    (eng : StateEngine) (st : JsState)
    {eng' : StateEngine} {st' : JsState} {tr : List Event} (hP : P st)
    (hok : enginePropagate H prop eng st = .ok (eng', st', tr)) :
    P st' ∧ ∀ ev ∈ tr, P ev.stateOf := by
  rw [enginePropagate] at hok
  cases hs : eng.schedule with
  | some sched =>
    simp only [hs] at hok
    obtain ⟨_, h2, h3, _⟩ := runSchedule_inv hI sched eng st hP hok
    exact ⟨h2, h3⟩
  | none =>
    simp only [hs] at hok
    cases hcs : eng.computeSchedule with
    | error e => simp only [hcs] at hok; cases hok
    | ok eng1 =>
      simp only [hcs] at hok
      obtain ⟨_, h2, h3, _⟩ := runSchedule_inv hI _ eng1 st hP hok
      exact ⟨h2, h3⟩

/-- Unfolding of a non-re-entrant `_propagate` call with fuel to spare. -/
theorem propagatePublicRec_succ (H : Handlers) (f : Nat) (eng : StateEngine)
    (st : JsState) (hfl : st.isPropagating = false) :
    propagatePublicRec H (f + 1) eng st =
      match enginePropagate H (propagatePublicRec H f) eng
          { st with isPropagating := true } with
      | .error e => .error e
      | .ok (eng1, st1, tr) =>
        .ok (eng1, { st1._reset with isPropagating := false }, tr) := by
  rw [propagatePublicRec, hfl]
  rfl

/-- C8: after an outermost `set`, `setChange` or `extend` call completes
without an error, every dirty flag is false and the dirty list, the change
payloads and the old values are all empty — cleared together by the single
trailing `_reset` — and the flag is back down; the clearing never happens
part-way through the pass: at every event of the pass the written resource
is still dirty. -/
theorem claim_C8_reset_after_pass (H : Handlers) (f : Nat)
    (eng : StateEngine) (st : JsState) (k : String)
    (hout : st.isPropagating = false) :
    (∀ v eng' st' tr,
      JsState.setPublic H (f + 1) eng st k v = .ok (eng', st', tr) →
      (∀ n, st'.isDirty n = false) ∧ st'.dirty = [] ∧ st'.changes = [] ∧
        st'.oldValues = [] ∧ st'.isPropagating = false ∧
        ∀ ev ∈ tr, ev.stateOf.isDirty k = true) ∧
    (∀ c eng' st' tr,
      JsState.setChangePublic H (f + 1) eng st k c = .ok (eng', st', tr) →
      (∀ n, st'.isDirty n = false) ∧ st'.dirty = [] ∧ st'.changes = [] ∧
        st'.oldValues = [] ∧ st'.isPropagating = false ∧
        ∀ ev ∈ tr, ev.stateOf.isDirty k = true) ∧
    (∀ hs eng' st' tr,
      JsState.extendPublic H (f + 1) eng st k hs = .ok (eng', st', tr) →
      (∀ n, st'.isDirty n = false) ∧ st'.dirty = [] ∧ st'.changes = [] ∧
        st'.oldValues = [] ∧ st'.isPropagating = false ∧
        ∀ ev ∈ tr, ev.stateOf.isDirty k = true) := by
  have main : ∀ st1 : JsState, st1.isPropagating = false →
      st1.isDirty k = true →
      ∀ eng' st' tr,
      propagatePublicRec H (f + 1) eng st1 = .ok (eng', st', tr) →
      (∀ n, st'.isDirty n = false) ∧ st'.dirty = [] ∧ st'.changes = [] ∧
        st'.oldValues = [] ∧ st'.isPropagating = false ∧
        ∀ ev ∈ tr, ev.stateOf.isDirty k = true := by
    intro st1 hfl hdk eng' st' tr hok
    rw [propagatePublicRec_succ H f eng st1 hfl] at hok
    cases he : enginePropagate H (propagatePublicRec H f) eng
        { st1 with isPropagating := true } with
    | error e => simp only [he] at hok; cases hok
    | ok res =>
      obtain ⟨eng1, st3, tr1⟩ := res
      simp only [he] at hok
      cases hok
      have hP2 : ({ st1 with isPropagating := true } : JsState).isPropagating
          = true ∧
          ({ st1 with isPropagating := true } : JsState).isDirty k = true :=
        ⟨rfl, hdk⟩
      obtain ⟨_, hev⟩ :=
        enginePropagate_inv (propInvHyp_flag_dirty H f k) eng _ hP2 he
      refine ⟨fun n => isDirty_false_of_nil rfl n, rfl, rfl, rfl, rfl, ?_⟩
      intro ev hev2
      exact (hev ev hev2).2
  refine ⟨?_, ?_, ?_⟩
  · intro v eng' st' tr hok
    rw [JsState.setPublic] at hok
    exact main (st._set k v) (by rw [_set_flag]; exact hout)
      (_set_dirty_self st k v) eng' st' tr hok
  · intro c eng' st' tr hok
    rw [JsState.setChangePublic] at hok
    exact main (st._setChange k c) (by rw [_setChange_flag]; exact hout)
      (_setChange_dirty_self st k c) eng' st' tr hok
  · intro hs eng' st' tr hok
    rw [JsState.extendPublic] at hok
    cases hex : st._extend k hs with
    | error e => simp only [hex] at hok; cases hok
    | ok st1 =>
      simp only [hex] at hok
      exact main st1 (by rw [_extend_flag hex]; exact hout)
        (_extend_dirty_self hex) eng' st' tr hok

def engC8 : StateEngine :=
  match runC2 with
  | .ok (e, _, _) => e
  | .error _ => StateEngine.new

def stC8 : JsState :=
  match runC2 with
  | .ok (_, s, _) => s
  | .error _ => stC2

theorem claim_C8_witness :
    stC2.isPropagating = false ∧
    ((∀ n, stC8.isDirty n = false) ∧ stC8.dirty = [] ∧ stC8.changes = [] ∧
      stC8.oldValues = [] ∧ stC8.isPropagating = false ∧
      ∀ ev ∈ trC2, ev.stateOf.isDirty "a" = true) :=
  ⟨rfl, (claim_C8_reset_after_pass Hpure 4 engC2 stC2 "a" rfl).1 (.num 1)
    engC8 stC8 trC2 (by rfl)⟩

/-- C9: while a pass is running (re-entrancy flag up) a handler's `set`,
`setChange` or `extend` performs no nested pass — the nested `_propagate`
is a guarded no-op, so the write only records the value / change payload
and marks the resource dirty, mutating neither the engine nor emitting any
event — and a resource dirty mid-pass stays dirty to the end of the
schedule, so every slot notified later in the same pass observes the
dirtiness. -/
theorem claim_C9_no_nested_pass (H : Handlers) (f : Nat) (k : String) :
    (∀ eng st v, st.isPropagating = true →
      applyAction (propagatePublicRec H f) eng st (.set k v) =
        .ok (eng, st._set k v, [])) ∧
    (∀ eng st c, st.isPropagating = true →
      applyAction (propagatePublicRec H f) eng st (.setChange k c) =
        .ok (eng, st._setChange k c, [])) ∧
    (∀ eng st hs st1, st.isPropagating = true →
      st._extend k hs = .ok st1 →
      applyAction (propagatePublicRec H f) eng st (.extend k hs) =
        .ok (eng, st1, [])) ∧
    (∀ (sched : List (String × JsRank)) (eng : StateEngine) (st : JsState)
      (eng' : StateEngine) (st' : JsState) (tr : List Event),
      st.isPropagating = true → st.isDirty k = true →
      runSchedule H (propagatePublicRec H f) eng st sched =
        .ok (eng', st', tr) →
      st'.isDirty k = true ∧ ∀ ev ∈ tr, ev.stateOf.isDirty k = true) := by
  refine ⟨?_, ?_, ?_, ?_⟩
  · intro eng st v hfl
    rw [applyAction, propagate_guard H f eng _ (by rw [_set_flag]; exact hfl)]
  · intro eng st c hfl
    rw [applyAction,
      propagate_guard H f eng _ (by rw [_setChange_flag]; exact hfl)]
  · intro eng st hs st1 hfl hex
    rw [applyAction]
    simp only [hex]
    exact propagate_guard H f eng st1 (by rw [_extend_flag hex]; exact hfl)
  · intro sched eng st eng' st' tr hfl hdk hok
    obtain ⟨_, hP, hev, _⟩ :=
      runSchedule_inv (propInvHyp_flag_dirty H f k) sched eng st ⟨hfl, hdk⟩ hok
    exact ⟨hP.2, fun ev hm => (hev ev hm).2⟩

theorem claim_C9_witness :
    applyAction (propagatePublicRec Hpure 3) engC2 stMidC2
        (.set "b" (.num 9)) =
      .ok (engC2, stMidC2._set "b" (.num 9), []) ∧
    (stC6.isDirty "a" = true ∧
      ∀ ev ∈ trC6, ev.stateOf.isDirty "a" = true) := by
  constructor
  · exact (claim_C9_no_nested_pass Hpure 3 "b").1 engC2 stMidC2 (.num 9) rfl
  · exact (claim_C9_no_nested_pass Hpure 3 "a").2.2.2 schedC6 engC6 stMidC2
      engC6' stC6 trC6 rfl rfl (by rfl)

/-- C10: registering a reducer whose sorted input set already has a slot
leaves the dependency graph untouched (no `addDependency` call) and keeps
the cached schedule (no `_invalidate`); the slot table keeps exactly its
keys, the hit slot gaining the new observer, and the only registry change
is the new entry appended to the owner's bucket. -/
theorem claim_C10_existing_slot_frame (eng : StateEngine)
    (outputs : List String) (inputs : List InputSpec) (handler owner : Nat)
    {slot : Slot}
    (hsl : alookup eng.slots
        (slotKey (sortStrings (extractResourceOptions inputs).1)) =
      some slot) :
    ∃ eng' entry',
      eng.addReducer outputs inputs handler owner = .ok (eng', entry') ∧
      eng'.deps = eng.deps ∧
      eng'.schedule = eng.schedule ∧
      eng'.slots.map Prod.fst = eng.slots.map Prod.fst ∧
      alookup eng'.slots
          (slotKey (sortStrings (extractResourceOptions inputs).1)) =
        some (Slot.addObserver slot
          { inputs := (extractResourceOptions inputs).1,
            outputs := outputs,
            opts := (extractResourceOptions inputs).2,
            owner := owner, handler := handler, path := none }).1 ∧
      entry' = (Slot.addObserver slot
          { inputs := (extractResourceOptions inputs).1,
            outputs := outputs,
            opts := (extractResourceOptions inputs).2,
            owner := owner, handler := handler, path := none }).2 ∧
      alookup eng'.registry owner =
        some ((alookup eng.registry owner).getD [] ++ [entry']) ∧
      (∀ o, o ≠ owner → alookup eng'.registry o = alookup eng.registry o) := by
  cases hro : extractResourceOptions inputs with
  | mk names opts =>
    simp only [hro] at hsl
    cases hob : Slot.addObserver slot
        { inputs := names, outputs := outputs, opts := opts, owner := owner,
          handler := handler, path := none } with
    | mk slot2 entry2 =>
      refine ⟨{ eng with
          slots := aset eng.slots (slotKey (sortStrings names)) slot2,
          registry := pushRegistry eng.registry owner entry2 }, entry2,
        ?_, rfl, rfl, ?_, ?_, ?_, ?_, ?_⟩
      · rw [StateEngine.addReducer]
        simp only [hro, hsl, hob]
      · exact aset_keys_of_isSome slot2 (by rw [hsl]; rfl)
      · simp only [hro, hob]
        show alookup (aset eng.slots (slotKey (sortStrings names)) slot2)
            (slotKey (sortStrings names)) = some slot2
        rw [alookup_aset, if_pos rfl]
      · simp only [hro, hob]
      · show alookup (pushRegistry eng.registry owner entry2) owner =
          some ((alookup eng.registry owner).getD [] ++ [entry2])
        rw [pushRegistry, alookup_aset, if_pos rfl]
      · intro o ho
        show alookup (pushRegistry eng.registry owner entry2) o =
          alookup eng.registry o
        rw [pushRegistry, alookup_aset, if_neg (fun he => ho he.symm)]

/-- The slot of sorted input set `["a"]` already present in `engC2`. -/
def slotC10 : Slot :=
  match alookup engC2.slots "(a)" with
  | some s => s
  | none => .value "" [] []

theorem claim_C10_witness :
    ∃ eng' entry',
      engC2.addReducer ["c"] [.plain "a"] 3 103 = .ok (eng', entry') ∧
      eng'.deps = engC2.deps ∧
      eng'.schedule = engC2.schedule ∧
      eng'.slots.map Prod.fst = engC2.slots.map Prod.fst ∧
      alookup eng'.slots
          (slotKey (sortStrings (extractResourceOptions [.plain "a"]).1)) =
        some (Slot.addObserver slotC10
          { inputs := (extractResourceOptions [.plain "a"]).1,
            outputs := ["c"],
            opts := (extractResourceOptions [.plain "a"]).2,
            owner := 103, handler := 3, path := none }).1 ∧
      entry' = (Slot.addObserver slotC10
          { inputs := (extractResourceOptions [.plain "a"]).1,
            outputs := ["c"],
            opts := (extractResourceOptions [.plain "a"]).2,
            owner := 103, handler := 3, path := none }).2 ∧
      alookup eng'.registry 103 =
        some ((alookup engC2.registry 103).getD [] ++ [entry']) ∧
      (∀ o, o ≠ 103 → alookup eng'.registry o = alookup engC2.registry o) :=
  claim_C10_existing_slot_frame engC2 ["c"] [.plain "a"] 3 103 (by rfl)
